import Mathlib

/-!
# logit

A verification development for the `logit` logging library: the rolling
`FileWriter` (`writer.go`), the naming, parsing and sorting of backup files
(`extension/file/backup.go`) and the comment stripping of the configuration
reader (`config.go`).

Go values are embedded as follows.

* A `string` or a `[]byte` is the list of its bytes (`GoString`); `len` is
  `List.length` and `s[lo:hi]` is `sliceStr`, which is `none` where Go panics.
* A `time.Time` is a wall-clock instant (`Time`); the timestamps of backups come
  out of `time.Parse`, which never attaches a monotonic reading.
* A slice under `sort.Slice` is the list of its elements, read by `sort.item` and
  changed by `sort.swap`; the algorithm is the pattern-defeating quicksort of
  package `sort` (Go 1.19 and later), function by function.
* An `*os.File` is a handle into a table of open files (`World`).
* Calls into the clock (`now().Format`), into `time.Parse` and `bytes.TrimSpace`
  and into the random generator of package `sort` are parameters of the functions
  that make them.
-/

namespace Logit

/-! ## Strings -/

/-- A Go `string` or `[]byte` value, as the sequence of its bytes. -/
abbrev GoString := List Nat

/-- The bytes of an ASCII literal. -/
def ascii (s : String) : GoString := s.toList.map Char.toNat

/-- The byte of the character `.` -/
def dotByte : Nat := 46

/-- The byte of the character `/`, which is `os.PathSeparator` on Unix. -/
def pathSeparator : Nat := 47

/-- The slice expression `s[lo:hi]` of Go on a string, with `int` bounds.
`none` is the run-time panic "slice bounds out of range". -/
def sliceStr (s : GoString) (lo hi : Int) : Option GoString :=
  if 0 ≤ lo ∧ lo ≤ hi ∧ hi ≤ (s.length : Int) then
    some ((s.drop lo.toNat).take (hi - lo).toNat)
  else
    none

/-! ## `path/filepath` -/

namespace filepath

/-- The loop of `filepath.Ext`:
`for i := len(path) - 1; i >= 0 && !os.IsPathSeparator(path[i]); i--`, returning
`path[i:]` at the first dot. The first argument is `path[:i+1]` read backwards,
the second is `path[i+1:]`. -/
def extScan : List Nat → List Nat → GoString
  | [], _ => []
  | c :: rest, acc =>
    if c = pathSeparator then []
    else if c = dotByte then c :: acc
    else extScan rest (c :: acc)

/-- The function `filepath.Ext`: the suffix beginning at the final dot in the
final element of `path`, empty if there is no dot. -/
def Ext (path : GoString) : GoString := extScan path.reverse []

/-- The loop of `filepath.Split` (no volume name on Unix):
`for i >= 0 && !os.IsPathSeparator(path[i]) { i-- }`, returning
`path[:i+1], path[i+1:]`. -/
def splitScan : List Nat → List Nat → GoString × GoString
  | [], acc => ([], acc)
  | c :: rest, acc =>
    if c = pathSeparator then ((c :: rest).reverse, acc)
    else splitScan rest (c :: acc)

/-- The function `filepath.Split`: the directory part of `path`, up to and
including the final separator, and the file part after it. -/
def Split (path : GoString) : GoString × GoString := splitScan path.reverse []

end filepath

/-! ## `time` -/

/-- A `time.Time` without monotonic clock reading: seconds and nanoseconds. -/
structure Time where
  sec : Int
  nsec : Nat
  deriving DecidableEq, Repr, Inhabited

/-- The method `Time.Before` on wall-clock instants:
`ts < us || ts == us && t.nsec() < u.nsec()`. -/
def Time.Before (t u : Time) : Bool :=
  decide (t.sec < u.sec) || (decide (t.sec = u.sec) && decide (t.nsec < u.nsec))

/-! ## `sort` -/

namespace sort

/-- The element `data[k]` of a slice; the default element stands for the panic of
an index out of range. -/
def item {α : Type} [Inhabited α] [Inhabited α] (d : List α) (k : Nat) : α := d.getD k default

/-- The method `Swap(i, j)` of a slice. -/
def swap {α : Type} [Inhabited α] [Inhabited α] (d : List α) (i j : Nat) : List α :=
  (d.set i (item d j)).set j (item d i)

/-- The inner loop of `insertionSort_func`:
`for j := i; j > a && less(j, j-1); j-- { swap(j, j-1) }`. -/
def insertionInner {α : Type} [Inhabited α] (less : α → α → Bool) (a : Nat) : Nat → (List α) → (List α)
  | 0, d => d
  | j + 1, d =>
    if a < j + 1 ∧ less (item d (j + 1)) (item d j) = true then
      insertionInner less a j (swap d (j + 1) j)
    else d

/-- The outer loop of `insertionSort_func`, `for i := a + 1; i < b; i++`, with
`n` for the iterations left (`b - i`). -/
def insertionOuter {α : Type} [Inhabited α] (less : α → α → Bool) (a : Nat) :
    Nat → Nat → (List α) → (List α)
  | 0, _, d => d
  | n + 1, i, d => insertionOuter less a n (i + 1) (insertionInner less a i d)

/-- The function `insertionSort_func`: insertion sort of `data[a:b]`. -/
def insertionSort_func {α : Type} [Inhabited α] (less : α → α → Bool) (d : List α) (a b : Nat) : List α :=
  insertionOuter less a (b - (a + 1)) (a + 1) d

/-- The loop of `siftDown_func` from `root` on; `fuel` bounds the iterations, and
`hi - root` of it are enough. -/
def siftDown {α : Type} [Inhabited α] (less : α → α → Bool) (hi first : Nat) :
    Nat → Nat → (List α) → (List α)
  | 0, _, d => d
  | fuel + 1, root, d =>
    if hi ≤ 2 * root + 1 then d
    else
      let child :=
        if 2 * root + 1 + 1 < hi ∧ less (item d (first + (2 * root + 1))) (item d (first + (2 * root + 1) + 1)) = true
        then 2 * root + 1 + 1 else 2 * root + 1
      if less (item d (first + root)) (item d (first + child)) = true then
        siftDown less hi first fuel child (swap d (first + root) (first + child))
      else d

/-- The function `siftDown_func`. -/
def siftDown_func {α : Type} [Inhabited α] (less : α → α → Bool) (d : List α) (lo hi first : Nat) : List α :=
  siftDown less hi first hi lo d

/-- The first loop of `heapSort_func`: `for i := (hi - 1) / 2; i >= 0; i--`. -/
def heapBuild {α : Type} [Inhabited α] (less : α → α → Bool) (hi first : Nat) : Nat → (List α) → (List α)
  | 0, d => siftDown_func less d 0 hi first
  | i + 1, d => heapBuild less hi first i (siftDown_func less d (i + 1) hi first)

/-- The second loop of `heapSort_func`, `for i := hi - 1; i >= 0; i--`, with `n`
for `i + 1`. -/
def heapPop {α : Type} [Inhabited α] (less : α → α → Bool) (first : Nat) : Nat → (List α) → (List α)
  | 0, d => d
  | i + 1, d => heapPop less first i (siftDown_func less (swap d first (first + i)) 0 i first)

/-- The function `heapSort_func`. -/
def heapSort_func {α : Type} [Inhabited α] (less : α → α → Bool) (d : List α) (a b : Nat) : List α :=
  heapPop less a (b - a) (heapBuild less (b - a) a ((b - a - 1) / 2) d)

/-- A loop `for i <= j && p(i) { i++ }`, with `n` for `j + 1 - i`; the result is
the final `i`. -/
def scanUp (p : Nat → Bool) : Nat → Nat → Nat
  | 0, i => i
  | n + 1, i => if p i then scanUp p n (i + 1) else i

/-- A loop `for i <= j && p(j) { j-- }`, with `n` for `j + 1 - i`; the result is
the final `j`. -/
def scanDown (p : Nat → Bool) : Nat → Nat → Nat
  | 0, j => j
  | n + 1, j => if p j then scanDown p n (j - 1) else j

/-- The loop shared by `partition_func` and `partitionEqual_func`:
`for { for i <= j && test(i) { i++ }; for i <= j && !test(j) { j-- };
if i > j { break }; swap(i, j); i++; j-- }`. The result is the data and the final
`i` and `j`; `fuel` bounds the iterations, and `j + 1 - i` of it are enough. -/
def hoareLoop {α : Type} [Inhabited α] (test : (List α) → Nat → Bool) :
    Nat → (List α) → Nat → Nat → (List α) × Nat × Nat
  | 0, d, i, j => (d, i, j)
  | fuel + 1, d, i, j =>
    let i1 := scanUp (fun k => test d k) (j + 1 - i) i
    let j1 := scanDown (fun k => !test d k) (j + 1 - i1) j
    if j1 < i1 then (d, i1, j1)
    else hoareLoop test fuel (swap d i1 j1) (i1 + 1) (j1 - 1)

/-- The function `partition_func`: the new index of the pivot and whether the
slice was already partitioned. -/
def partition_func {α : Type} [Inhabited α] (less : α → α → Bool) (d : List α) (a b pivot : Nat) :
    (List α) × Nat × Bool :=
  let d1 := swap d a pivot
  let i1 := scanUp (fun k => less (item d1 k) (item d1 a)) (b - 1 + 1 - (a + 1)) (a + 1)
  let j1 := scanDown (fun k => !less (item d1 k) (item d1 a)) (b - 1 + 1 - i1) (b - 1)
  if j1 < i1 then (swap d1 j1 a, j1, true)
  else
    let r := hoareLoop (fun d k => less (item d k) (item d a)) (b - a) (swap d1 i1 j1) (i1 + 1) (j1 - 1)
    (swap r.1 r.2.2 a, r.2.2, false)

/-- The function `partitionEqual_func`. -/
def partitionEqual_func {α : Type} [Inhabited α] (less : α → α → Bool) (d : List α) (a b pivot : Nat) :
    (List α) × Nat :=
  let r := hoareLoop (fun d k => !less (item d a) (item d k)) (b - a) (swap d a pivot) (a + 1) (b - 1)
  (r.1, r.2.1)

/-- The loop `for j := i - 1; j >= 1; j-- { if !less(j, j-1) { break }; swap(j, j-1) }`
of `partialInsertionSort_func`, from `j` on. -/
def shiftLeft {α : Type} [Inhabited α] (less : α → α → Bool) : Nat → (List α) → (List α)
  | 0, d => d
  | j + 1, d => if less (item d (j + 1)) (item d j) = true then shiftLeft less j (swap d (j + 1) j) else d

/-- The loop `for j := i + 1; j < b; j++ { if !less(j, j-1) { break }; swap(j, j-1) }`
of `partialInsertionSort_func`, from `j` on, with `n` for `b - j`. -/
def shiftRight {α : Type} [Inhabited α] (less : α → α → Bool) : Nat → Nat → (List α) → (List α)
  | 0, _, d => d
  | n + 1, j, d =>
    if less (item d j) (item d (j - 1)) = true then shiftRight less n (j + 1) (swap d j (j - 1)) else d

/-- The loop `for j := 0; j < maxSteps; j++` of `partialInsertionSort_func`, with
`steps` for the iterations left. -/
def partialLoop {α : Type} [Inhabited α] (less : α → α → Bool) (a b : Nat) :
    Nat → (List α) → Nat → (List α) × Bool
  | 0, d, _ => (d, false)
  | steps + 1, d, i =>
    let i1 := scanUp (fun k => !less (item d k) (item d (k - 1))) (b - i) i
    if i1 = b then (d, true)
    else if b - a < 50 then (d, false)
    else
      let d1 := swap d i1 (i1 - 1)
      let d2 := if 2 ≤ i1 - a then shiftLeft less (i1 - 1) d1 else d1
      let d3 := if 2 ≤ b - i1 then shiftRight less (b - (i1 + 1)) (i1 + 1) d2 else d2
      partialLoop less a b steps d3 i1

/-- The function `partialInsertionSort_func` (`maxSteps = 5`,
`shortestShifting = 50`): the data and whether the slice is sorted at the end. -/
def partialInsertionSort_func {α : Type} [Inhabited α] (less : α → α → Bool) (d : List α) (a b : Nat) :
    (List α) × Bool :=
  partialLoop less a b 5 d (a + 1)

/-- The function `bits.Len`, by halving; `fuel` bounds the halvings. -/
def bitsLenAux : Nat → Nat → Nat
  | 0, _ => 0
  | fuel + 1, n => if n = 0 then 0 else bitsLenAux fuel (n / 2) + 1

/-- The function `bits.Len`: the number of bits of `n`. -/
def bitsLen (n : Nat) : Nat := bitsLenAux n n

/-- The function `nextPowerOfTwo`. -/
def nextPowerOfTwo (length : Nat) : Nat := 2 ^ bitsLen length

/-- The function `breakPatterns_func`. The generator `xorshift.Next` of package
`sort` is the parameter `next`, from the state to the next state, which is the
value drawn. -/
def breakPatterns_func {α : Type} [Inhabited α] (next : Nat → Nat) (d : List α) (a b : Nat) : List α :=
  let length := b - a
  if 8 ≤ length then
    let modulus := nextPowerOfTwo length
    let idx := a + (length / 4) * 2 - 1
    let other : Nat → Nat := fun r =>
      if length ≤ r % modulus then r % modulus - length else r % modulus
    let r1 := next length
    let r2 := next r1
    let r3 := next r2
    swap (swap (swap d (idx - 1 + 0) (a + other r1)) (idx - 1 + 1) (a + other r2))
      (idx - 1 + 2) (a + other r3)
  else d

/-- The type `sortedHint`. -/
inductive sortedHint where
  | unknownHint
  | increasingHint
  | decreasingHint
  deriving DecidableEq, Repr

/-- The function `order2_func`: the two indices in order, and the count of
swaps. -/
def order2_func {α : Type} [Inhabited α] (less : α → α → Bool) (d : List α) (a b swaps : Nat) :
    Nat × Nat × Nat :=
  if less (item d b) (item d a) = true then (b, a, swaps + 1) else (a, b, swaps)

/-- The function `median_func`: the index of the median, and the count of
swaps. -/
def median_func {α : Type} [Inhabited α] (less : α → α → Bool) (d : List α) (a b c swaps : Nat) :
    Nat × Nat :=
  let r1 := order2_func less d a b swaps
  let r2 := order2_func less d r1.2.1 c r1.2.2
  let r3 := order2_func less d r1.1 r2.1 r2.2.2
  (r3.2.1, r3.2.2)

/-- The function `medianAdjacent_func`. -/
def medianAdjacent_func {α : Type} [Inhabited α] (less : α → α → Bool) (d : List α) (a swaps : Nat) :
    Nat × Nat :=
  median_func less d (a - 1) a (a + 1) swaps

/-- The function `choosePivot_func` (`shortestNinther = 50`, `maxSwaps = 12`). -/
def choosePivot_func {α : Type} [Inhabited α] (less : α → α → Bool) (d : List α) (a b : Nat) :
    Nat × sortedHint :=
  let l := b - a
  let i := a + l / 4 * 1
  let j := a + l / 4 * 2
  let k := a + l / 4 * 3
  if 8 ≤ l then
    let mi := if 50 ≤ l then medianAdjacent_func less d i 0 else (i, 0)
    let mj := if 50 ≤ l then medianAdjacent_func less d j mi.2 else (j, mi.2)
    let mk := if 50 ≤ l then medianAdjacent_func less d k mj.2 else (k, mj.2)
    let m := median_func less d mi.1 mj.1 mk.1 mk.2
    (m.1,
      if m.2 = 0 then sortedHint.increasingHint
      else if m.2 = 12 then sortedHint.decreasingHint
      else sortedHint.unknownHint)
  else (j, sortedHint.increasingHint)

/-- The loop of `reverseRange_func`: `for i < j { swap(i, j); i++; j-- }`; `fuel`
bounds the iterations. -/
def reverseLoop {α : Type} [Inhabited α] : Nat → (List α) → Nat → Nat → (List α)
  | 0, d, _, _ => d
  | fuel + 1, d, i, j => if i < j then reverseLoop fuel (swap d i j) (i + 1) (j - 1) else d

/-- The function `reverseRange_func`. -/
def reverseRange_func {α : Type} [Inhabited α] (d : List α) (a b : Nat) : List α :=
  reverseLoop (b - a) d a (b - 1)

/-- How one turn of the loop of `pdqsort_func` goes on: it returns, or it goes on
behind the elements equal to the pivot (`a = mid; continue`), or it sorts one
side of the pivot by a recursive call and goes on with the other. -/
inductive Turn (α : Type) where
  | done (d : List α)
  | equal (d : List α) (mid limit : Nat)
  | split (d : List α) (mid limit : Nat) (alreadyPartitioned : Bool)

/-- One turn of the loop `for { ... }` of `pdqsort_func` (`maxInsertion = 12`) on
the range `data[a:b]`, up to the point where it returns, continues or calls
itself. -/
def pdqsortTurn {α : Type} [Inhabited α] (next : Nat → Nat) (less : α → α → Bool) (d : List α)
    (a b limit : Nat) (wasBalanced wasPartitioned : Bool) : Turn α :=
  if b - a ≤ 12 then Turn.done (insertionSort_func less d a b)
  else if limit = 0 then Turn.done (heapSort_func less d a b)
  else
    let d1 := if wasBalanced then d else breakPatterns_func next d a b
    let limit1 := if wasBalanced then limit else limit - 1
    let ph := choosePivot_func less d1 a b
    let d2 := if ph.2 = sortedHint.decreasingHint then reverseRange_func d1 a b else d1
    let pivot := if ph.2 = sortedHint.decreasingHint then (b - 1) - (ph.1 - a) else ph.1
    let hint :=
      if ph.2 = sortedHint.decreasingHint then sortedHint.increasingHint else ph.2
    let ps :=
      if wasBalanced = true ∧ wasPartitioned = true ∧ hint = sortedHint.increasingHint then
        partialInsertionSort_func less d2 a b
      else (d2, false)
    if ps.2 = true then Turn.done ps.1
    else if 0 < a ∧ less (item ps.1 (a - 1)) (item ps.1 pivot) = false then
      Turn.equal (partitionEqual_func less ps.1 a b pivot).1
        (partitionEqual_func less ps.1 a b pivot).2 limit1
    else
      Turn.split (partition_func less ps.1 a b pivot).1 (partition_func less ps.1 a b pivot).2.1
        limit1 (partition_func less ps.1 a b pivot).2.2

/-- The loop `for { ... }` of `pdqsort_func` over the range `data[a:b]` still to
sort, with the state `limit`, `wasBalanced`, `wasPartitioned`; a recursive call
starts it anew on the shorter side of the pivot. `fuel` bounds the depth of both,
and `b - a` of it are enough. -/
def pdqsortLoop {α : Type} [Inhabited α] (next : Nat → Nat) (less : α → α → Bool) :
    Nat → (List α) → Nat → Nat → Nat → Bool → Bool → (List α)
  | 0, d, a, b, _, _, _ => insertionSort_func less d a b
  | fuel + 1, d, a, b, limit, wasBalanced, wasPartitioned =>
    match pdqsortTurn next less d a b limit wasBalanced wasPartitioned with
    | Turn.done d1 => d1
    | Turn.equal d1 mid limit1 =>
      pdqsortLoop next less fuel d1 mid b limit1 wasBalanced wasPartitioned
    | Turn.split d1 mid limit1 alreadyPartitioned =>
      if mid - a < b - mid then
        pdqsortLoop next less fuel
          (pdqsortLoop next less fuel d1 a mid limit1 true true)
          (mid + 1) b limit1 (decide ((b - a) / 8 ≤ mid - a)) alreadyPartitioned
      else
        pdqsortLoop next less fuel
          (pdqsortLoop next less fuel d1 (mid + 1) b limit1 true true)
          a mid limit1 (decide ((b - a) / 8 ≤ b - mid)) alreadyPartitioned

/-- The function `pdqsort_func` on `data[a:b]`. -/
def pdqsort_func {α : Type} [Inhabited α] (next : Nat → Nat) (less : α → α → Bool) (d : List α)
    (a b limit : Nat) : List α :=
  pdqsortLoop next less (b - a) d a b limit true true

/-- The function `sort.Slice` of Go 1.19 and later:
`pdqsort_func(lessSwap{less, swap}, 0, length, bits.Len(uint(length)))`. The list
is the slice before the call, the result the slice after it; `less` receives the
two elements that the Go closure reads at its two indices. -/
def Slice {α : Type} [Inhabited α] (next : Nat → Nat) (less : α → α → Bool)
    (data : List α) : List α :=
  pdqsort_func next less data 0 data.length (bitsLen data.length)

/-! ### What sorting means -/

/-- The order that `sort.Slice` asks of `less`: a strict weak order. -/
structure StrictWeak {α : Type} (less : α → α → Bool) : Prop where
  asymm : ∀ x y, less x y = true → less y x = false
  negTrans : ∀ x y z, less x y = false → less y z = false → less x z = false

/-- In `data[a:b]` no element is less than the one before it. -/
def AdjSorted {α : Type} [Inhabited α] (less : α → α → Bool) (d : List α) (a b : Nat) : Prop :=
  ∀ k, a ≤ k → k + 1 < b → less (item d (k + 1)) (item d k) = false

/-- The slice `d2` is the slice `d1` with the elements of `data[a:b]` rearranged:
same length, and a permutation of the indices that moves none outside `a ≤ k < b`
carries the one to the other. -/
def Rearranged {α : Type} [Inhabited α] (d1 d2 : List α) (a b : Nat) : Prop :=
  d2.length = d1.length ∧
    ∃ σ : Equiv.Perm Nat, (∀ k, ¬ (a ≤ k ∧ k < b) → σ k = k) ∧ ∀ k, item d2 k = item d1 (σ k)

/-- No element of `data[a:b]` is less than `data[a-1]`, when there is one. -/
def LowerBound {α : Type} [Inhabited α] (less : α → α → Bool) (d : List α) (a b : Nat) : Prop :=
  a = 0 ∨ ∀ k, a ≤ k → k < b → less (item d k) (item d (a - 1)) = false


/-- In the heap `data[first:first+hi]` the node `r` is not less than its
children. -/
def Dominates {α : Type} [Inhabited α] (less : α → α → Bool) (d : List α)
    (first hi r : Nat) : Prop :=
  ∀ c, (c = 2 * r + 1 ∨ c = 2 * r + 2) → c < hi →
    less (item d (first + r)) (item d (first + c)) = false

end sort

/-! ## Package `file`: backups -/

namespace file

/-- The constant `backupSeparator = "."`. -/
def backupSeparator : GoString := [dotByte]

/-- The struct `backup`. -/
structure backup where
  path : GoString
  t : Time
  deriving DecidableEq, Repr, Inhabited

/-- The method `backup.BeforeTime`. -/
def backup.BeforeTime (b : backup) (t : Time) : Bool := b.t.Before t

/-- The method `backup.Before`. -/
def backup.Before (b other : backup) : Bool := b.t.Before other.t

/-- The function `sortBackups`: `sort.Slice` with `backups[i].Before(backups[j])`
as its order; the result is the slice as the call leaves it. The generator of
package `sort` is the parameter `next`. -/
def sortBackups (next : Nat → Nat) (backups : List backup) : List backup :=
  sort.Slice next (fun x y => x.Before y) backups

/-- Thirteen backups for examples, `p00` to `p12` in this order, the backup `i`
with the time of `i mod 3` seconds. -/
def thirteen : List backup :=
  (List.range 13).map (fun i => ⟨ascii "p" ++ [48 + i / 10, 48 + i % 10], ⟨(i % 3 : Nat), 0⟩⟩)

/-- A generator for the examples, none of which draws from it: their ranges are
imbalanced only when twelve elements are left, which go to insertion sort. -/
def plainNext : Nat → Nat := fun r => r + 1

/-- The function `backupPrefixAndExt`:
`ext := filepath.Ext(path)` and `path[:len(path)-len(ext)] + backupSeparator`. -/
def backupPrefixAndExt (path : GoString) : GoString × GoString :=
  let ext := filepath.Ext path
  (path.take (path.length - ext.length) ++ backupSeparator, ext)

/-- The function `backupPath`. The call `now().Format` of the clock is the
parameter `nowFormat`, from a layout to the formatted current time. -/
def backupPath (nowFormat : GoString → GoString) (path timeFormat : GoString) : GoString :=
  let r := backupPrefixAndExt path
  let now := nowFormat timeFormat
  r.1 ++ now ++ r.2

/-- What a call of `parseBackupTime` can do: return a time, return the error of
`time.Parse`, or panic in its slice expression. -/
inductive ParseOutcome where
  | ok (t : Time)
  | parseError (msg : String)
  | sliceBoundsOutOfRange
  deriving DecidableEq, Repr

/-- The pair `(time.Time, error)` that `time.Parse` returns, as an outcome. -/
def ParseOutcome.ofParse : Except String Time → ParseOutcome
  | Except.ok t => ParseOutcome.ok t
  | Except.error e => ParseOutcome.parseError e

/-- The function `parseBackupTime`:
`ts := filename[len(prefix) : len(filename)-len(ext)]` and
`time.Parse(timeFormat, ts)`. The library function `time.Parse` is the parameter
`Parse`. -/
def parseBackupTime (Parse : GoString → GoString → Except String Time)
    (filename pre ext timeFormat : GoString) : ParseOutcome :=
  match sliceStr filename (pre.length : Int) ((filename.length : Int) - (ext.length : Int)) with
  | none => ParseOutcome.sliceBoundsOutOfRange
  | some ts => ParseOutcome.ofParse (Parse timeFormat ts)

/-- A clock for examples, standing at 07:08:09 on 6 May 2024, on the layouts the
examples use; on any other layout its value is the layout itself. -/
def clockA : GoString → GoString := fun layout =>
  if layout = ascii "2006/01/02" then ascii "2024/05/06"
  else if layout = ascii "20060102" then ascii "20240506"
  else if layout = ascii "150405" then ascii "070809"
  else layout

/-- A second clock for examples, one second later than `clockA`, standing at
07:08:10 on 6 May 2024. -/
def clockB : GoString → GoString := fun layout =>
  if layout = ascii "2006/01/02" then ascii "2024/05/06"
  else if layout = ascii "20060102" then ascii "20240506"
  else if layout = ascii "150405" then ascii "070810"
  else layout

/-- A parser for examples: it accepts exactly `20240506` under the layout
`20060102`, as midnight of that day in UTC. -/
def parseDay (layout value : GoString) : Except String Time :=
  if layout = ascii "20060102" ∧ value = ascii "20240506" then
    Except.ok { sec := 1714953600, nsec := 0 }
  else
    Except.error "cannot parse"

end file

/-! ## `os`: files -/

namespace os

/-- An `*os.File` that is not nil: a handle into the table of files. -/
abbrev File := Nat

/-- What the operating system keeps for a handle: whether it has been closed, the
bytes written through it so far, and how many more bytes the device takes before
writes fail (`none` when it takes any number). -/
structure FileState where
  closed : Bool
  data : GoString
  room : Option Nat
  deriving DecidableEq, Repr

end os

/-- The errors that matter here: `os.ErrClosed` ("file already closed"), which
package `os` reports for every use of a closed file, and all other errors. -/
inductive Error where
  | ErrClosed
  | other (msg : String)
  deriving DecidableEq, Repr

/-- The state outside the writer: the table of files, and the rest of the process
and of the operating system (clock, directory contents, the private state of the
rollers), of any type `σ`. -/
structure World (σ : Type) where
  files : os.File → os.FileState
  rest : σ

namespace os

/-- The number of bytes of a write of `len` bytes that a device with `room` left
takes. -/
def accepted (room : Option Nat) (len : Nat) : Nat :=
  match room with
  | none => len
  | some r => min r len

/-- The method `(*os.File).Write` on a handle: a closed file takes no byte and
reports `os.ErrClosed`; an open one takes the first `n` bytes of `b`, as many as
the device has room for, and reports an error when `n != len(b)`. The result is
`(n, err)` and the world after the call. -/
def File.Write {σ : Type} (w : World σ) (f : File) (b : GoString) :
    (Nat × Option Error) × World σ :=
  if (w.files f).closed then
    ((0, some Error.ErrClosed), w)
  else
    let n := accepted (w.files f).room b.length
    let state : FileState :=
      ⟨false, (w.files f).data ++ b.take n, (w.files f).room.map (fun r => r - n)⟩
    ((n, if n = b.length then none else some (Error.other "no space left on device")),
      { w with files := Function.update w.files f state })

/-- The method `(*os.File).Close` on a handle: closing twice reports
`os.ErrClosed`. -/
def File.Close {σ : Type} (w : World σ) (f : File) : Option Error × World σ :=
  if (w.files f).closed then
    (some Error.ErrClosed, w)
  else
    let state : FileState := ⟨true, (w.files f).data, (w.files f).room⟩
    (none, { w with files := Function.update w.files f state })

end os

/-! ## Package `logit`: the file writer -/

/-- The fields of a `FileWriter` that a roller reads through the pointer it is
given; by the contract of `Roller` it must not change them. -/
structure FileWriterView where
  name : GoString
  file : os.File
  seq : Nat
  deriving DecidableEq, Repr

/-- The interface `Roller`. Both methods may read and change the world; `Roll`
returns a file that is not nil, or an error. -/
structure Roller (σ : Type) where
  TimeToRoll : FileWriterView → World σ → Bool × World σ
  Roll : FileWriterView → World σ → Except Error os.File × World σ

/-- The struct `FileWriter`, without its lock: one call runs at a time. The field
`seq` is a `uint32`; nothing below does arithmetic on it. -/
structure FileWriter (σ : Type) where
  name : GoString
  file : os.File
  seq : Nat
  rollers : List (Roller σ)

/-- What a roller sees of the writer. -/
def FileWriter.view {σ : Type} (fw : FileWriter σ) : FileWriterView :=
  { name := fw.name, file := fw.file, seq := fw.seq }

/-- The function `NewFileWriter`. The result of its call of `os.OpenFile` is the
parameter `opened`. -/
def NewFileWriter {σ : Type} (opened : Except Error os.File) (name : GoString)
    (rollers : List (Roller σ)) : Except Error (FileWriter σ) :=
  match opened with
  | Except.error err => Except.error err
  | Except.ok file => Except.ok { name := name, file := file, seq := 0, rollers := rollers }

/-- A call that `Write` makes on the roller at index `i` of `fw.rollers`; for
`Roll`, whether it returned a nil error. -/
inductive Event where
  | TimeToRoll (i : Nat)
  | Roll (i : Nat) (ok : Bool)
  deriving DecidableEq, Repr

/-- The index of the roller that a call is made on. -/
def Event.index : Event → Nat
  | Event.TimeToRoll i => i
  | Event.Roll i _ => i

/-- The loop of `Write` over `fw.rollers`, from index `i` on:
`if roller.TimeToRoll(fw) { if newFile, err := roller.Roll(fw); err == nil { fw.file = newFile; break } }`.
The result is the file to adopt, if a roll succeeded, the world after the loop,
and the calls made on the rollers, in the order they were made. -/
def rollLoop {σ : Type} (fw : FileWriterView) :
    Nat → List (Roller σ) → World σ → Option os.File × World σ × List Event
  | _, [], w => (none, w, [])
  | i, roller :: rest, w =>
    let t := roller.TimeToRoll fw w
    if t.1 then
      match roller.Roll fw t.2 with
      | (Except.ok newFile, w2) =>
        (some newFile, w2, [Event.TimeToRoll i, Event.Roll i true])
      | (Except.error _, w2) =>
        let r := rollLoop fw (i + 1) rest w2
        (r.1, r.2.1, Event.TimeToRoll i :: Event.Roll i false :: r.2.2)
    else
      let r := rollLoop fw (i + 1) rest t.2
      (r.1, r.2.1, Event.TimeToRoll i :: r.2.2)

/-- What a call of `Write` leaves: the writer and the world after it, the
results `n` and `err`, and the calls it made on the rollers. -/
structure WriteResult (σ : Type) where
  fw : FileWriter σ
  world : World σ
  n : Nat
  err : Option Error
  calls : List Event

/-- The method `FileWriter.Write`: the loop over the rollers, then
`return fw.file.Write(p)`. -/
def FileWriter.Write {σ : Type} (fw : FileWriter σ) (w : World σ) (p : GoString) :
    WriteResult σ :=
  let r := rollLoop fw.view 0 fw.rollers w
  let file := match r.1 with
    | some newFile => newFile
    | none => fw.file
  let wr := os.File.Write r.2.1 file p
  { fw := { fw with file := file }, world := wr.2, n := wr.1.1, err := wr.1.2, calls := r.2.2 }

/-- The method `FileWriter.Close`: `fw.rollers = nil` and
`return fw.file.Close()`. -/
def FileWriter.Close {σ : Type} (fw : FileWriter σ) (w : World σ) :
    (FileWriter σ × World σ) × Option Error :=
  let r := os.File.Close w fw.file
  (({ fw with rollers := [] }, r.2), r.1)

/-- A call on a writer. -/
inductive Call where
  | Write (p : GoString)
  | Close
  deriving DecidableEq, Repr

/-- The writer and the world after one call. -/
def FileWriter.call {σ : Type} (s : FileWriter σ × World σ) : Call → FileWriter σ × World σ
  | Call.Write p => ((s.1.Write s.2 p).fw, (s.1.Write s.2 p).world)
  | Call.Close => (s.1.Close s.2).1

/-- The writer and the world after a sequence of calls. -/
def FileWriter.calls {σ : Type} (s : FileWriter σ × World σ) (cs : List Call) :
    FileWriter σ × World σ :=
  cs.foldl FileWriter.call s

/-- A world for examples in which the handle 3 is open and empty and every other
handle is closed. -/
def world3 : World Unit :=
  { files := fun f => { closed := decide (f ≠ 3), data := [], room := none }, rest := () }

/-- A roller for examples that never asks for a roll. -/
def idleRoller : Roller Unit :=
  { TimeToRoll := fun _ w => (false, w)
    Roll := fun _ w => (Except.error (Error.other "not due"), w) }

/-- A roller for examples that always asks for a roll and whose `Roll` fails, as
when the new file cannot be opened. -/
def failingRoller : Roller Unit :=
  { TimeToRoll := fun _ w => (true, w)
    Roll := fun _ w => (Except.error (Error.other "permission denied"), w) }

/-- A roller for examples that always asks for a roll and whose `Roll` opens a
new, empty file under the handle `f`. -/
def rollerTo (f : os.File) : Roller Unit :=
  { TimeToRoll := fun _ w => (true, w)
    Roll := fun _ w =>
      (Except.ok f,
        { w with files := Function.update w.files f ⟨false, [], none⟩ }) }

/-- A writer for examples, as `NewFileWriter` builds it on `test.log` opened under
the handle 3. -/
def writer3 (rollers : List (Roller Unit)) : FileWriter Unit :=
  { name := ascii "test.log", file := 3, seq := 0, rollers := rollers }

/-! ## Package `logit`: comments of the configuration file -/

/-- The byte of the line feed. -/
def newlineByte : Nat := 10

namespace bytes

/-- The function `bytes.IndexByte`: the index of the first `c` in `s`, `none` for
the result `-1`. -/
def IndexByte : GoString → Nat → Option Nat
  | [], _ => none
  | b :: bs, c => if b = c then some 0 else (IndexByte bs c).map (fun m => m + 1)

/-- The function `bytes.Count` for a separator of one byte. -/
def Count : GoString → Nat → Nat
  | [], _ => 0
  | b :: bs, c => if b = c then Count bs c + 1 else Count bs c

/-- The loop of `genSplit`, with `k` for the iterations left (`n - i`):
`m := Index(s, sep); if m < 0 { break }; a[i] = s[:m]; s = s[m+len(sep):]`,
and `a[i] = s` after the loop. -/
def splitLoop (c : Nat) : Nat → GoString → List GoString
  | 0, s => [s]
  | k + 1, s =>
    match IndexByte s c with
    | none => [s]
    | some m => s.take m :: splitLoop c k (s.drop (m + 1))

/-- The function `bytes.Split(s, sep)` for a separator of one byte `c`, which is
`genSplit(s, sep, 0, -1)`: `n = Count(s, sep) + 1`, capped at `len(s) + 1`, and
the loop runs while `i < n - 1`. -/
def Split (s : GoString) (c : Nat) : List GoString :=
  let n := min (Count s c + 1) (s.length + 1)
  splitLoop c (n - 1) s

/-- The function `bytes.HasPrefix`. -/
def HasPrefix (s pre : GoString) : Bool :=
  decide (pre.length ≤ s.length) && decide (s.take pre.length = pre)

end bytes

/-- The function `removeComments`: the lines of the file, split at line feeds,
appended to a buffer unless their trimmed text starts with `#`. The library
function `bytes.TrimSpace` is the parameter `TrimSpace`. -/
def removeComments (TrimSpace : GoString → GoString) (fileInBytes : GoString) : GoString :=
  let lines := bytes.Split fileInBytes newlineByte
  lines.foldl
    (fun buffer line =>
      if !bytes.HasPrefix (TrimSpace line) (ascii "#") then buffer ++ line else buffer)
    []

/-- A trimming function for examples: `bytes.TrimSpace` on ASCII text, where white
space is tab, line feed, vertical tab, form feed, carriage return and space. -/
def trimAscii (s : GoString) : GoString :=
  let space : Nat → Bool := fun b => decide (b = 9 ∨ b = 10 ∨ b = 11 ∨ b = 12 ∨ b = 13 ∨ b = 32)
  ((s.dropWhile space).reverse.dropWhile space).reverse

/-! ## Lemmas on paths -/

namespace filepath

theorem extScan_suffix (rest acc : List Nat) :
    extScan rest acc <:+ rest.reverse ++ acc := by
  induction rest generalizing acc with
  | nil => simp [extScan]
  | cons c rest ih =>
    unfold extScan
    split_ifs with h1 h2
    · exact List.nil_suffix
    · simp
    · have := ih (c :: acc)
      simpa using this

theorem Ext_suffix (path : GoString) : Ext path <:+ path := by
  have := extScan_suffix path.reverse []
  simpa [Ext] using this

theorem extScan_shape (rest acc : List Nat)
    (hacc : ∀ x ∈ acc, x ≠ dotByte ∧ x ≠ pathSeparator) :
    extScan rest acc = [] ∨
      ∃ e, extScan rest acc = dotByte :: e ∧ ∀ x ∈ e, x ≠ dotByte ∧ x ≠ pathSeparator := by
  induction rest generalizing acc with
  | nil => left; simp [extScan]
  | cons c rest ih =>
    unfold extScan
    split_ifs with h1 h2
    · left; rfl
    · right; exact ⟨acc, by rw [h2], hacc⟩
    · apply ih
      intro x hx
      rcases List.mem_cons.mp hx with rfl | hx
      · exact ⟨h2, h1⟩
      · exact hacc x hx

theorem Ext_shape (path : GoString) :
    Ext path = [] ∨
      ∃ e, Ext path = dotByte :: e ∧ ∀ x ∈ e, x ≠ dotByte ∧ x ≠ pathSeparator :=
  extScan_shape path.reverse [] (by simp)

theorem Ext_no_separator (path : GoString) : pathSeparator ∉ Ext path := by
  rcases Ext_shape path with h | ⟨e, h, he⟩
  · simp [h]
  · rw [h]
    intro hmem
    rcases List.mem_cons.mp hmem with h1 | h1
    · simp [pathSeparator, dotByte] at h1
    · exact (he _ h1).2 rfl

theorem stem_append_Ext (path : GoString) :
    path.take (path.length - (Ext path).length) ++ Ext path = path := by
  obtain ⟨s, hs⟩ := Ext_suffix path
  have hlen : path.length - (Ext path).length = s.length := by
    have := congrArg List.length hs
    simp at this
    omega
  rw [hlen]
  have htake : path.take s.length = s := by
    rw [← hs]
    simp
  rw [htake, hs]

theorem splitScan_fst (rest acc acc2 : List Nat) :
    (splitScan rest acc).1 = (splitScan rest acc2).1 := by
  induction rest generalizing acc acc2 with
  | nil => simp [splitScan]
  | cons c rest ih =>
    unfold splitScan
    split_ifs with h1
    · rfl
    · exact ih _ _

theorem splitScan_skip (g rest acc : List Nat) (hg : pathSeparator ∉ g) :
    splitScan (g ++ rest) acc = splitScan rest (g.reverse ++ acc) := by
  induction g generalizing acc with
  | nil => simp
  | cons c g ih =>
    have hc : c ≠ pathSeparator := fun h => hg (by simp [h])
    have hg2 : pathSeparator ∉ g := fun h => hg (by simp [h])
    rw [List.cons_append, splitScan, if_neg hc, ih _ hg2]
    simp

/-- Appending text without a separator does not change the directory part. -/
theorem Split_dir_append (s t : GoString) (ht : pathSeparator ∉ t) :
    (Split (s ++ t)).1 = (Split s).1 := by
  unfold Split
  rw [List.reverse_append, splitScan_skip _ _ _ (by simpa using ht)]
  exact splitScan_fst _ _ _

theorem extScan_nil_no_dot (rest acc : List Nat) (hacc : dotByte ∉ acc)
    (h : extScan rest acc = []) : dotByte ∉ (splitScan rest acc).2 := by
  induction rest generalizing acc with
  | nil => simpa [splitScan] using hacc
  | cons c rest ih =>
    unfold extScan at h
    unfold splitScan
    split_ifs at h ⊢ with h1 h2
    · exact hacc
    · apply ih _ _ h
      intro hmem
      rcases List.mem_cons.mp hmem with h3 | h3
      · exact h2 h3.symm
      · exact hacc h3

end filepath

/-! ## Backup names -/

theorem sliceStr_middle (a b c : GoString) :
    sliceStr (a ++ b ++ c) (a.length : Int)
      (((a ++ b ++ c).length : Int) - (c.length : Int)) = some b := by
  unfold sliceStr
  have h1 : ((a ++ b ++ c).length : Int) - (c.length : Int) = (a.length : Int) + (b.length : Int) := by
    simp only [List.length_append]
    push_cast
    omega
  rw [h1]
  have h2 : (0 : Int) ≤ (a.length : Int) ∧ (a.length : Int) ≤ (a.length : Int) + (b.length : Int) ∧
      (a.length : Int) + (b.length : Int) ≤ ((a ++ b ++ c).length : Int) := by
    simp only [List.length_append]
    push_cast
    omega
  rw [if_pos h2]
  have h3 : ((a.length : Int) + (b.length : Int) - (a.length : Int)).toNat = b.length := by
    omega
  rw [h3, Int.toNat_ofNat, List.append_assoc, List.drop_left, List.take_left]

theorem sliceStr_stem (path : GoString) :
    sliceStr path 0 ((path.length : Int) - ((filepath.Ext path).length : Int))
      = some (path.take (path.length - (filepath.Ext path).length)) := by
  have h := sliceStr_middle [] (path.take (path.length - (filepath.Ext path).length))
    (filepath.Ext path)
  simp only [List.nil_append, List.length_nil, Nat.cast_zero] at h
  rw [filepath.stem_append_Ext] at h
  exact h

/-- C4, as amended. The backup name is `stem + "." + now().Format(timeFormat) + ext`,
where `ext` is `filepath.Ext(path)` (empty when the final path element has no
dot, else the text from its final dot on) and `stem` is `path` without `ext`
(the slice `path[:len(path)-len(ext)]`, which never panics), so that
`stem + ext = path`; the backup lies in the directory of `path` whenever the
formatted time contains no path separator. -/
theorem backupPath_stem_time_ext (nowFormat : GoString → GoString)
    (path timeFormat : GoString) :
    ∃ stem : GoString,
      sliceStr path 0 ((path.length : Int) - ((filepath.Ext path).length : Int)) = some stem ∧
      stem ++ filepath.Ext path = path ∧
      file.backupPath nowFormat path timeFormat
        = stem ++ ascii "." ++ nowFormat timeFormat ++ filepath.Ext path ∧
      ((filepath.Ext path = [] ∧ dotByte ∉ (filepath.Split path).2) ∨
        ∃ e, filepath.Ext path = dotByte :: e ∧ dotByte ∉ e ∧ pathSeparator ∉ e) ∧
      (pathSeparator ∉ nowFormat timeFormat →
        (filepath.Split (file.backupPath nowFormat path timeFormat)).1
          = (filepath.Split path).1) := by
  refine ⟨path.take (path.length - (filepath.Ext path).length), sliceStr_stem path,
    filepath.stem_append_Ext path, ?_, ?_, ?_⟩
  · rfl
  · rcases filepath.Ext_shape path with h | ⟨e, h, he⟩
    · left
      exact ⟨h, filepath.extScan_nil_no_dot _ _ (by simp) h⟩
    · right
      exact ⟨e, h, fun hm => (he _ hm).1 rfl, fun hm => (he _ hm).2 rfl⟩
  · intro hts
    have hback : file.backupPath nowFormat path timeFormat
        = path.take (path.length - (filepath.Ext path).length)
          ++ (file.backupSeparator ++ nowFormat timeFormat ++ filepath.Ext path) := by
      simp [file.backupPath, file.backupPrefixAndExt]
    have hpath : (filepath.Split path).1
        = (filepath.Split (path.take (path.length - (filepath.Ext path).length)
            ++ filepath.Ext path)).1 := by
      rw [filepath.stem_append_Ext]
    rw [hback, hpath, filepath.Split_dir_append _ _ (filepath.Ext_no_separator path),
      filepath.Split_dir_append]
    intro hmem
    simp only [List.mem_append, file.backupSeparator, List.mem_singleton] at hmem
    rcases hmem with (h | h) | h
    · simp [pathSeparator, dotByte] at h
    · exact hts h
    · exact filepath.Ext_no_separator path h

/-- A witness of `backupPath_stem_time_ext` at `app.log` under the layout
`20060102`. -/
theorem backupPath_stem_time_ext_witness :
    ∃ stem : GoString,
      sliceStr (ascii "app.log") 0
        (((ascii "app.log").length : Int) - ((filepath.Ext (ascii "app.log")).length : Int))
          = some stem ∧
      stem ++ filepath.Ext (ascii "app.log") = ascii "app.log" ∧
      file.backupPath file.clockA (ascii "app.log") (ascii "20060102")
        = stem ++ ascii "." ++ file.clockA (ascii "20060102") ++ filepath.Ext (ascii "app.log") ∧
      ((filepath.Ext (ascii "app.log") = [] ∧ dotByte ∉ (filepath.Split (ascii "app.log")).2) ∨
        ∃ e, filepath.Ext (ascii "app.log") = dotByte :: e ∧ dotByte ∉ e ∧ pathSeparator ∉ e) ∧
      (pathSeparator ∉ file.clockA (ascii "20060102") →
        (filepath.Split (file.backupPath file.clockA (ascii "app.log") (ascii "20060102"))).1
          = (filepath.Split (ascii "app.log")).1) :=
  backupPath_stem_time_ext file.clockA (ascii "app.log") (ascii "20060102")

/-- C4 as stated fails: at 6 May 2024 the layout `2006/01/02` formats to text with
path separators, and the backup `app.2024/05/06.log` of `app.log` lies in the
directory `app.2024/05/`, not in the directory of `app.log`. -/
theorem backupPath_other_directory :
    file.backupPath file.clockA (ascii "app.log") (ascii "2006/01/02")
        = ascii "app.2024/05/06.log" ∧
      (filepath.Split (file.backupPath file.clockA (ascii "app.log") (ascii "2006/01/02"))).1
        = ascii "app.2024/05/" ∧
      (filepath.Split (ascii "app.log")).1 = [] ∧
      (filepath.Split (file.backupPath file.clockA (ascii "app.log") (ascii "2006/01/02"))).1
        ≠ (filepath.Split (ascii "app.log")).1 := by
  decide

/-- C5. The text that `parseBackupTime` slices out of a name built by
`backupPath` is the formatted time itself, and the call returns what
`time.Parse` returns on it. -/
theorem parseBackupTime_backupPath (Parse : GoString → GoString → Except String Time)
    (nowFormat : GoString → GoString) (path timeFormat : GoString) :
    sliceStr (file.backupPath nowFormat path timeFormat)
        ((file.backupPrefixAndExt path).1.length : Int)
        (((file.backupPath nowFormat path timeFormat).length : Int)
          - ((file.backupPrefixAndExt path).2.length : Int))
      = some (nowFormat timeFormat) ∧
    file.parseBackupTime Parse (file.backupPath nowFormat path timeFormat)
        (file.backupPrefixAndExt path).1 (file.backupPrefixAndExt path).2 timeFormat
      = file.ParseOutcome.ofParse (Parse timeFormat (nowFormat timeFormat)) := by
  have h := sliceStr_middle (file.backupPrefixAndExt path).1 (nowFormat timeFormat)
    (file.backupPrefixAndExt path).2
  have hname : file.backupPath nowFormat path timeFormat
      = (file.backupPrefixAndExt path).1 ++ nowFormat timeFormat
        ++ (file.backupPrefixAndExt path).2 := rfl
  refine ⟨by rw [hname]; exact h, ?_⟩
  unfold file.parseBackupTime
  rw [hname, h]

/-- C6, as amended. `backupPath` depends on the path and on the formatted time
only, never on the files that exist: two rotations compute the same backup path
exactly when their times format to the same text under `timeFormat`. -/
theorem backupPath_eq_iff (nowFormat1 nowFormat2 : GoString → GoString)
    (path timeFormat : GoString) :
    file.backupPath nowFormat1 path timeFormat = file.backupPath nowFormat2 path timeFormat
      ↔ nowFormat1 timeFormat = nowFormat2 timeFormat := by
  constructor
  · intro h
    simpa [file.backupPath] using h
  · intro h
    simp [file.backupPath, h]

/-- C6 as stated fails: the rotations at 07:08:09 and at 07:08:10 of 6 May 2024
both format to `20240506` under the layout `20060102`, and the second computes
the very path `app.20240506.log` that the first computed. -/
theorem backupPath_collision :
    file.clockA (ascii "150405") ≠ file.clockB (ascii "150405") ∧
      file.clockA (ascii "20060102") = file.clockB (ascii "20060102") ∧
      file.backupPath file.clockA (ascii "app.log") (ascii "20060102")
        = ascii "app.20240506.log" ∧
      file.backupPath file.clockB (ascii "app.log") (ascii "20060102")
        = file.backupPath file.clockA (ascii "app.log") (ascii "20060102") := by
  decide

theorem overlap_is_path (stem e a b : GoString) (he : dotByte ∉ e)
    (h : stem ++ dotByte :: a = b ++ dotByte :: e) (hlen : b.length ≤ stem.length) :
    b = stem ∧ a = e := by
  rcases List.append_eq_append_iff.mp h with ⟨c, hb, hc⟩ | ⟨c, hs, hc⟩
  · have hc0 : c = [] := by
      have := congrArg List.length hb
      simp at this
      exact List.length_eq_zero.mp (by omega)
    subst hc0
    simp at hb hc
    exact ⟨hb, hc⟩
  · cases c with
    | nil =>
      simp at hs hc
      exact ⟨hs.symm, hc.symm⟩
    | cons x c =>
      simp at hc
      exact absurd (by rw [hc.2]; simp) he

/-- For a file name that starts with the backup prefix of `path`, ends with its
extension and is not `path` itself, the slice bounds of `parseBackupTime` are in
range, so the call returns what `time.Parse` returns on the text between prefix
and extension: a time or a parse error, never a panic. -/
theorem parseBackupTime_in_range (Parse : GoString → GoString → Except String Time)
    (path filename timeFormat : GoString)
    (hpre : (file.backupPrefixAndExt path).1 <+: filename)
    (hext : (file.backupPrefixAndExt path).2 <:+ filename)
    (hne : filename ≠ path) :
    ((file.backupPrefixAndExt path).1.length : Int)
        ≤ (filename.length : Int) - ((file.backupPrefixAndExt path).2.length : Int) ∧
      ∃ ts : GoString,
        filename = (file.backupPrefixAndExt path).1 ++ ts ++ (file.backupPrefixAndExt path).2 ∧
        file.parseBackupTime Parse filename (file.backupPrefixAndExt path).1
            (file.backupPrefixAndExt path).2 timeFormat
          = file.ParseOutcome.ofParse (Parse timeFormat ts) ∧
        file.parseBackupTime Parse filename (file.backupPrefixAndExt path).1
            (file.backupPrefixAndExt path).2 timeFormat
          ≠ file.ParseOutcome.sliceBoundsOutOfRange := by
  obtain ⟨a, ha⟩ := hpre
  obtain ⟨b, hb⟩ := hext
  have hstem := filepath.stem_append_Ext path
  have hp : (file.backupPrefixAndExt path).1
      = path.take (path.length - (filepath.Ext path).length) ++ [dotByte] := rfl
  have hx : (file.backupPrefixAndExt path).2 = filepath.Ext path := rfl
  generalize hs : path.take (path.length - (filepath.Ext path).length) = stem at hp hstem
  -- the prefix and the extension do not overlap in `filename`
  have hlen : (file.backupPrefixAndExt path).1.length + (file.backupPrefixAndExt path).2.length
      ≤ filename.length := by
    by_contra hlt
    push_neg at hlt
    have hfa := congrArg List.length ha
    have hfb := congrArg List.length hb
    rw [hp] at hfa hlt
    rw [hx] at hfb hlt
    simp only [List.length_append, List.length_singleton] at hfa hfb hlt
    rcases filepath.Ext_shape path with h0 | ⟨e, h1, he⟩
    · rw [h0] at hlt
      simp at hlt
      omega
    · rw [h1] at hfb hlt
      simp only [List.length_cons] at hfb hlt
      have heq : stem ++ dotByte :: a = b ++ dotByte :: e := by
        rw [← h1, ← hx, hb, ← ha, hp]
        simp
      have := overlap_is_path stem e a b (fun hm => (he _ hm).1 rfl) heq (by omega)
      apply hne
      rw [← hb, hx, h1, this.1, ← h1, hstem]
  -- hence the file name is prefix, middle and extension
  have hmid : ∃ ts, a = ts ++ (file.backupPrefixAndExt path).2 := by
    have h2 : (file.backupPrefixAndExt path).1 ++ a = b ++ (file.backupPrefixAndExt path).2 := by
      rw [ha, hb]
    rcases List.append_eq_append_iff.mp h2 with ⟨c, hb2, hc⟩ | ⟨c, hs2, hc⟩
    · exact ⟨c, hc⟩
    · have hc0 : c = [] := by
        have h3 := congrArg List.length hs2
        have h4 := congrArg List.length hb
        simp only [List.length_append] at h3 h4
        exact List.length_eq_zero.mp (by omega)
      subst hc0
      exact ⟨[], by simpa using hc.symm⟩
  obtain ⟨ts, hts⟩ := hmid
  have hfile : filename
      = (file.backupPrefixAndExt path).1 ++ ts ++ (file.backupPrefixAndExt path).2 := by
    rw [← ha, hts, List.append_assoc]
  have hslice := sliceStr_middle (file.backupPrefixAndExt path).1 ts
    (file.backupPrefixAndExt path).2
  rw [← hfile] at hslice
  have hval : file.parseBackupTime Parse filename (file.backupPrefixAndExt path).1
      (file.backupPrefixAndExt path).2 timeFormat
        = file.ParseOutcome.ofParse (Parse timeFormat ts) := by
    unfold file.parseBackupTime
    rw [hslice]
  refine ⟨by omega, ts, hfile, hval, ?_⟩
  rw [hval]
  cases Parse timeFormat ts <;> simp [file.ParseOutcome.ofParse]

/-- A witness of `parseBackupTime_in_range`: the backup `app.20240506.log` of
`app.log`. -/
theorem parseBackupTime_in_range_witness :
    ((file.backupPrefixAndExt (ascii "app.log")).1.length : Int)
        ≤ ((ascii "app.20240506.log").length : Int)
          - ((file.backupPrefixAndExt (ascii "app.log")).2.length : Int) ∧
      ∃ ts : GoString,
        ascii "app.20240506.log" = (file.backupPrefixAndExt (ascii "app.log")).1 ++ ts
          ++ (file.backupPrefixAndExt (ascii "app.log")).2 ∧
        file.parseBackupTime file.parseDay (ascii "app.20240506.log")
            (file.backupPrefixAndExt (ascii "app.log")).1
            (file.backupPrefixAndExt (ascii "app.log")).2 (ascii "20060102")
          = file.ParseOutcome.ofParse (file.parseDay (ascii "20060102") ts) ∧
        file.parseBackupTime file.parseDay (ascii "app.20240506.log")
            (file.backupPrefixAndExt (ascii "app.log")).1
            (file.backupPrefixAndExt (ascii "app.log")).2 (ascii "20060102")
          ≠ file.ParseOutcome.sliceBoundsOutOfRange :=
  parseBackupTime_in_range file.parseDay (ascii "app.log") (ascii "app.20240506.log")
    (ascii "20060102") ⟨ascii "20240506.log", by decide⟩ ⟨ascii "app.20240506", by decide⟩
    (by decide)

/-- C9, the code at the failing input. The file name `app.log` starts with the
prefix `app.` of the path `app.log` and ends with its extension `.log`, yet the
lower slice bound 4 exceeds the upper bound 3 and `parseBackupTime` panics where
it should report a file that is no backup through its error result. -/
theorem parseBackupTime_out_of_range :
    file.backupPrefixAndExt (ascii "app.log") = (ascii "app.", ascii ".log") ∧
      (file.backupPrefixAndExt (ascii "app.log")).1 <+: ascii "app.log" ∧
      (file.backupPrefixAndExt (ascii "app.log")).2 <:+ ascii "app.log" ∧
      ¬ (((file.backupPrefixAndExt (ascii "app.log")).1.length : Int)
          ≤ ((ascii "app.log").length : Int)
            - ((file.backupPrefixAndExt (ascii "app.log")).2.length : Int)) ∧
      file.parseBackupTime file.parseDay (ascii "app.log")
          (file.backupPrefixAndExt (ascii "app.log")).1
          (file.backupPrefixAndExt (ascii "app.log")).2 (ascii "20060102")
        = file.ParseOutcome.sliceBoundsOutOfRange := by
  refine ⟨by decide, ⟨ascii "log", by decide⟩, ⟨ascii "app", by decide⟩, by decide, by decide⟩

/-! ## Sorting: `sort.Slice` -/

namespace sort

theorem length_swap {α : Type} [Inhabited α] (d : List α) (i j : Nat) : (swap d i j).length = d.length := by
  simp [swap]

theorem item_swap {α : Type} [Inhabited α] (d : List α) (i j k : Nat) (hi : i < d.length) (hj : j < d.length) :
    item (swap d i j) k = if k = i then item d j else if k = j then item d i else item d k := by
  simp only [item, swap, List.getD_eq_getElem?_getD, List.getElem?_set, List.length_set]
  by_cases h1 : k = j
  · subst h1
    by_cases h2 : k = i
    · subst h2; simp [hi]
    · simp [hj, h2]
  · by_cases h2 : k = i
    · subst h2
      simp [hi, Ne.symm h1]
    · simp [h1, h2, Ne.symm h1, Ne.symm h2]

theorem item_swap_fst {α : Type} [Inhabited α] (d : List α) (i j : Nat)
    (hi : i < d.length) (hj : j < d.length) : item (swap d i j) i = item d j := by
  rw [item_swap d i j i hi hj]; simp

theorem item_swap_snd {α : Type} [Inhabited α] (d : List α) (i j : Nat)
    (hi : i < d.length) (hj : j < d.length) : item (swap d i j) j = item d i := by
  rw [item_swap d i j j hi hj]
  by_cases h : j = i
  · subst h; simp
  · simp [h]

theorem item_swap_ne {α : Type} [Inhabited α] (d : List α) (i j k : Nat)
    (hi : i < d.length) (hj : j < d.length) (h1 : k ≠ i) (h2 : k ≠ j) :
    item (swap d i j) k = item d k := by
  rw [item_swap d i j k hi hj]; simp [h1, h2]

theorem Rearranged.refl {α : Type} [Inhabited α] (d : List α) (a b : Nat) : Rearranged d d a b :=
  ⟨rfl, Equiv.refl Nat, fun _ _ => rfl, fun _ => rfl⟩

theorem Rearranged.trans {α : Type} [Inhabited α] {d1 d2 d3 : List α} {a b : Nat}
    (h1 : Rearranged d1 d2 a b) (h2 : Rearranged d2 d3 a b) : Rearranged d1 d3 a b := by
  obtain ⟨l1, σ, hσ, e1⟩ := h1
  obtain ⟨l2, τ, hτ, e2⟩ := h2
  refine ⟨l2.trans l1, τ.trans σ, ?_, ?_⟩
  · intro k hk
    simp only [Equiv.trans_apply]
    rw [hτ k hk, hσ k hk]
  · intro k
    simp only [Equiv.trans_apply]
    rw [e2, e1]

theorem Rearranged.mono {α : Type} [Inhabited α] {d1 d2 : List α} {a b a' b' : Nat}
    (h : Rearranged d1 d2 a b) (ha : a' ≤ a) (hb : b ≤ b') : Rearranged d1 d2 a' b' := by
  obtain ⟨l1, σ, hσ, e1⟩ := h
  refine ⟨l1, σ, ?_, e1⟩
  intro k hk
  apply hσ
  intro hk2
  exact hk ⟨by omega, by omega⟩

theorem Rearranged.swap {α : Type} [Inhabited α] (d : List α) {a b i j : Nat} (hb : b ≤ d.length)
    (hi : a ≤ i ∧ i < b) (hj : a ≤ j ∧ j < b) : Rearranged d (swap d i j) a b := by
  refine ⟨length_swap d i j, Equiv.swap i j, ?_, ?_⟩
  · intro k hk
    apply Equiv.swap_apply_of_ne_of_ne
    · rintro rfl; exact hk hi
    · rintro rfl; exact hk hj
  · intro k
    rw [item_swap d i j k (by omega) (by omega)]
    by_cases h1 : k = i
    · subst h1; simp
    · by_cases h2 : k = j
      · subst h2; simp [h1]
      · simp [h1, h2, Equiv.swap_apply_of_ne_of_ne h1 h2]

theorem Rearranged.length_eq {α : Type} [Inhabited α] {d1 d2 : List α} {a b : Nat} (h : Rearranged d1 d2 a b) :
    d2.length = d1.length := h.1

theorem Rearranged.outside {α : Type} [Inhabited α] {d1 d2 : List α} {a b : Nat} (h : Rearranged d1 d2 a b)
    (k : Nat) (hk : ¬ (a ≤ k ∧ k < b)) : item d2 k = item d1 k := by
  obtain ⟨_, σ, hσ, e1⟩ := h
  rw [e1, hσ k hk]

theorem Rearranged.source {α : Type} [Inhabited α] {d1 d2 : List α} {a b : Nat} (h : Rearranged d1 d2 a b)
    (k : Nat) (hk : a ≤ k ∧ k < b) : ∃ m, (a ≤ m ∧ m < b) ∧ item d2 k = item d1 m := by
  obtain ⟨_, σ, hσ, e1⟩ := h
  refine ⟨σ k, ?_, e1 k⟩
  by_contra hm
  have h1 := hσ (σ k) hm
  have h2 := σ.injective h1
  rw [h2] at hm
  exact hm hk

theorem Rearranged.all {α : Type} [Inhabited α] {d1 d2 : List α} {a b : Nat} (h : Rearranged d1 d2 a b)
    (P : α → Prop) (hP : ∀ k, a ≤ k → k < b → P (item d1 k)) :
    ∀ k, a ≤ k → k < b → P (item d2 k) := by
  intro k h1 h2
  obtain ⟨m, hm, e⟩ := h.source k ⟨h1, h2⟩
  rw [e]
  exact hP m hm.1 hm.2

theorem StrictWeak.irrefl {α : Type} {less : α → α → Bool} (h : StrictWeak less) (x : α) :
    less x x = false := by
  cases hx : less x x
  · rfl
  · have := h.asymm x x hx
    rw [hx] at this
    exact this

theorem StrictWeak.lt_of_lt_of_le {α : Type} {less : α → α → Bool} (h : StrictWeak less) {x y z : α}
    (h1 : less x y = true) (h2 : less z y = false) : less x z = true := by
  cases hxz : less x z
  · have := h.negTrans x z y hxz h2
    rw [h1] at this
    exact absurd this (by simp)
  · rfl

theorem StrictWeak.lt_of_le_of_lt {α : Type} {less : α → α → Bool} (h : StrictWeak less) {x y z : α}
    (h1 : less y x = false) (h2 : less y z = true) : less x z = true := by
  cases hxz : less x z
  · have := h.negTrans y x z h1 hxz
    rw [h2] at this
    exact absurd this (by simp)
  · rfl

theorem LowerBound.of_rearranged {α : Type} [Inhabited α] {less : α → α → Bool} {d1 d2 : List α} {a b : Nat}
    (h : LowerBound less d1 a b) (hr : Rearranged d1 d2 a b) : LowerBound less d2 a b := by
  rcases h with h | h
  · exact Or.inl h
  · by_cases ha : a = 0
    · exact Or.inl ha
    · right
      have hout : item d2 (a - 1) = item d1 (a - 1) := hr.outside _ (by omega)
      rw [hout]
      exact hr.all (fun x => less x (item d1 (a - 1)) = false) h

theorem LowerBound.shrink {α : Type} [Inhabited α] {less : α → α → Bool} {d : List α} {a b b' : Nat}
    (h : LowerBound less d a b) (hb : b' ≤ b) : LowerBound less d a b' := by
  rcases h with h | h
  · exact Or.inl h
  · exact Or.inr fun k h1 h2 => h k h1 (by omega)

/-- Sortedness of adjacent elements gives sortedness of all pairs. -/
theorem AdjSorted.pair {α : Type} [Inhabited α] {less : α → α → Bool} (hw : StrictWeak less) {d : List α} {a b : Nat}
    (h : AdjSorted less d a b) :
    ∀ n i, a ≤ i → i + n < b → less (item d (i + n)) (item d i) = false := by
  intro n
  induction n with
  | zero => intro i _ _; exact hw.irrefl _
  | succ n ih =>
    intro i h1 h2
    have e1 := ih i h1 (by omega)
    have e2 := h (i + n) (by omega) (by omega)
    exact hw.negTrans _ _ _ e2 e1

theorem insertionInner_spec {α : Type} [Inhabited α] {less : α → α → Bool}
    (hw : StrictWeak less) (a i : Nat) :
    ∀ (j : Nat) (d : List α), a ≤ j → j ≤ i → i < d.length →
      (∀ k, a ≤ k → k + 1 ≤ i → k + 1 ≠ j → less (item d (k + 1)) (item d k) = false) →
      (a < j → j < i → less (item d (j + 1)) (item d (j - 1)) = false) →
      Rearranged d (insertionInner less a j d) a (i + 1) ∧
        AdjSorted less (insertionInner less a j d) a (i + 1) := by
  intro j
  induction j with
  | zero =>
    intro d _ _ _ hinv _
    refine ⟨Rearranged.refl _ _ _, ?_⟩
    intro k h1 h2
    exact hinv k h1 (by omega) (by omega)
  | succ j ih =>
    intro d haj hji hlen hinv hlink
    unfold insertionInner
    split_ifs with hc
    · have hl1 : j + 1 < d.length := by omega
      have hl2 : j < d.length := by omega
      have hr := ih (swap d (j + 1) j) (by omega) (by omega)
        (by rw [length_swap]; exact hlen)
        (by
          intro k h1 h2 h3
          by_cases e1 : k = j
          · subst e1
            rw [item_swap_fst d _ _ hl1 hl2, item_swap_snd d _ _ hl1 hl2]
            exact hw.asymm _ _ hc.2
          · by_cases e2 : k = j + 1
            · subst e2
              rw [item_swap_fst d _ _ hl1 hl2,
                item_swap_ne d _ _ _ hl1 hl2 (by omega) (by omega)]
              have := hlink hc.1 (by omega)
              simpa using this
            · rw [item_swap_ne d _ _ _ hl1 hl2 (by omega) (by omega),
                item_swap_ne d _ _ _ hl1 hl2 (by omega) (by omega)]
              exact hinv k h1 h2 (by omega))
        (by
          intro h1 h2
          rw [item_swap_fst d _ _ hl1 hl2,
            item_swap_ne d _ _ _ hl1 hl2 (by omega) (by omega)]
          have := hinv (j - 1) (by omega) (by omega) (by omega)
          have e3 : j - 1 + 1 = j := by omega
          rw [e3] at this
          exact this)
      refine ⟨Rearranged.trans (Rearranged.swap d (by omega) ⟨by omega, by omega⟩
        ⟨by omega, by omega⟩) hr.1, hr.2⟩
    · refine ⟨Rearranged.refl _ _ _, ?_⟩
      intro k h1 h2
      by_cases e1 : k = j
      · subst e1
        have : ¬ less (item d (k + 1)) (item d k) = true := fun h => hc ⟨by omega, h⟩
        simpa using this
      · exact hinv k h1 (by omega) (by omega)

theorem insertionOuter_spec {α : Type} [Inhabited α] {less : α → α → Bool}
    (hw : StrictWeak less) (a : Nat) :
    ∀ (n i : Nat) (d : List α), a < i → i + n ≤ d.length → AdjSorted less d a i →
      Rearranged d (insertionOuter less a n i d) a (i + n) ∧
        AdjSorted less (insertionOuter less a n i d) a (i + n) := by
  intro n
  induction n with
  | zero =>
    intro i d _ _ hs
    exact ⟨Rearranged.refl _ _ _, hs⟩
  | succ n ih =>
    intro i d hai hlen hs
    unfold insertionOuter
    have h1 := insertionInner_spec hw a i i d (by omega) (le_refl _) (by omega)
      (fun k h1 h2 h3 => hs k h1 (by omega)) (fun _ h => absurd h (by omega))
    have h2 := ih (i + 1) (insertionInner less a i d) (by omega)
      (by rw [h1.1.length_eq]; omega) h1.2
    have e : i + 1 + n = i + (n + 1) := by omega
    rw [e] at h2
    exact ⟨(h1.1.mono (le_refl _) (by omega)).trans h2.1, h2.2⟩

theorem insertionSort_func_spec {α : Type} [Inhabited α] {less : α → α → Bool}
    (hw : StrictWeak less) (d : List α) (a b : Nat) (hb : b ≤ d.length) :
    Rearranged d (insertionSort_func less d a b) a b ∧
      AdjSorted less (insertionSort_func less d a b) a b := by
  unfold insertionSort_func
  by_cases hab : a + 1 ≤ b
  · have h := insertionOuter_spec hw a (b - (a + 1)) (a + 1) d (by omega) (by omega)
      (fun k h1 h2 => absurd h2 (by omega))
    have e : a + 1 + (b - (a + 1)) = b := by omega
    rw [e] at h
    exact h
  · have e : b - (a + 1) = 0 := by omega
    rw [e]
    exact ⟨Rearranged.refl _ _ _, fun k h1 h2 => absurd h2 (by omega)⟩

theorem siftDown_spec {α : Type} [Inhabited α] {less : α → α → Bool}
    (hw : StrictWeak less) (lo hi first : Nat) :
    ∀ (fuel root : Nat) (d : List α), hi ≤ root + fuel → lo ≤ root →
      first + hi ≤ d.length →
      (∀ r, lo ≤ r → r ≠ root → Dominates less d first hi r) →
      (1 ≤ root → lo ≤ (root - 1) / 2 → ∀ c, (c = 2 * root + 1 ∨ c = 2 * root + 2) → c < hi →
        less (item d (first + (root - 1) / 2)) (item d (first + c)) = false) →
      Rearranged d (siftDown less hi first fuel root d) (first + lo) (first + hi) ∧
        ∀ r, lo ≤ r → Dominates less (siftDown less hi first fuel root d) first hi r := by
  intro fuel
  induction fuel with
  | zero =>
    intro root d hf hlo hlen hdom hlink
    refine ⟨Rearranged.refl _ _ _, ?_⟩
    intro r hr
    by_cases e : r = root
    · subst e
      intro c hc1 hc2
      omega
    · exact hdom r hr e
  | succ fuel ih =>
    intro root d hf hlo hlen hdom hlink
    unfold siftDown
    by_cases h1 : hi ≤ 2 * root + 1
    · rw [if_pos h1]
      refine ⟨Rearranged.refl _ _ _, ?_⟩
      intro r hr
      by_cases e : r = root
      · subst e
        intro c hc1 hc2
        omega
      · exact hdom r hr e
    · rw [if_neg h1]
      simp only []
      -- the greater child
      generalize hchild :
        (if 2 * root + 1 + 1 < hi ∧
            less (item d (first + (2 * root + 1))) (item d (first + (2 * root + 1) + 1)) = true
          then 2 * root + 1 + 1 else 2 * root + 1) = child
      have hch : (child = 2 * root + 1 ∨ child = 2 * root + 2) ∧ child < hi := by
        rw [← hchild]
        split_ifs with h2
        · exact ⟨Or.inr rfl, h2.1⟩
        · exact ⟨Or.inl rfl, by omega⟩
      have hmax : ∀ c, (c = 2 * root + 1 ∨ c = 2 * root + 2) → c < hi →
          less (item d (first + child)) (item d (first + c)) = false := by
        intro c hc1 hc2
        by_cases e : c = child
        · rw [e]; exact hw.irrefl _
        · rw [← hchild] at e ⊢
          split_ifs at e ⊢ with h2
          · have ec : c = 2 * root + 1 := by omega
            subst ec
            exact hw.asymm _ _ h2.2
          · have ec : c = 2 * root + 1 + 1 := by omega
            subst ec
            have : ¬ less (item d (first + (2 * root + 1)))
                (item d (first + (2 * root + 1) + 1)) = true := fun h => h2 ⟨hc2, h⟩
            simpa using this
      by_cases h3 : less (item d (first + root)) (item d (first + child)) = true
      · rw [if_pos h3]
        have hl1 : first + root < d.length := by omega
        have hl2 : first + child < d.length := by omega
        have hr := ih child (swap d (first + root) (first + child)) (by omega) (by omega)
          (by rw [length_swap]; exact hlen)
          (by
            intro r hr1 hr2 c hc1 hc2
            by_cases e : r = root
            · subst e
              rw [item_swap_fst d _ _ hl1 hl2]
              by_cases e2 : c = child
              · subst e2
                rw [item_swap_snd d _ _ hl1 hl2]
                exact hw.asymm _ _ h3
              · rw [item_swap_ne d _ _ _ hl1 hl2 (by omega) (by omega)]
                exact hmax c hc1 hc2
            · rw [item_swap_ne d _ _ (first + r) hl1 hl2 (by omega) (by omega)]
              by_cases e2 : c = root
              · subst e2
                rw [item_swap_fst d _ _ hl1 hl2]
                have hp : r = (c - 1) / 2 := by omega
                rw [hp]
                exact hlink (by omega) (by omega) child hch.1 hch.2
              · rw [item_swap_ne d _ _ (first + c) hl1 hl2 (by omega) (by omega)]
                exact hdom r hr1 e c hc1 hc2)
          (by
            intro _ _ c hc1 hc2
            have hp : (child - 1) / 2 = root := by omega
            rw [hp, item_swap_fst d _ _ hl1 hl2,
              item_swap_ne d _ _ (first + c) hl1 hl2 (by omega) (by omega)]
            exact hdom child (by omega) (by omega) c hc1 hc2)
        refine ⟨Rearranged.trans (Rearranged.swap d (by omega) ⟨by omega, by omega⟩
          ⟨by omega, by omega⟩) (hr.1.mono (by omega) (le_refl _)), ?_⟩
        intro r hr1
        exact hr.2 r (by omega)
      · rw [if_neg h3]
        refine ⟨Rearranged.refl _ _ _, ?_⟩
        intro r hr
        by_cases e : r = root
        · subst e
          intro c hc1 hc2
          have h4 : less (item d (first + r)) (item d (first + child)) = false := by
            simpa using h3
          exact hw.negTrans _ _ _ h4 (hmax c hc1 hc2)
        · exact hdom r hr e

theorem heapBuild_spec {α : Type} [Inhabited α] {less : α → α → Bool}
    (hw : StrictWeak less) (hi first : Nat) :
    ∀ (i : Nat) (d : List α), first + hi ≤ d.length →
      (∀ r, i + 1 ≤ r → Dominates less d first hi r) →
      Rearranged d (heapBuild less hi first i d) first (first + hi) ∧
        ∀ r, Dominates less (heapBuild less hi first i d) first hi r := by
  intro i
  induction i with
  | zero =>
    intro d hlen hdom
    unfold heapBuild siftDown_func
    have h := siftDown_spec hw 0 hi first hi 0 d (by omega) (le_refl _) hlen
      (fun r _ hr => hdom r (by omega)) (fun h => absurd h (by omega))
    exact ⟨h.1, fun r => h.2 r (Nat.zero_le _)⟩
  | succ i ih =>
    intro d hlen hdom
    unfold heapBuild siftDown_func
    have h := siftDown_spec hw (i + 1) hi first hi (i + 1) d (by omega) (le_refl _) hlen
      (fun r h1 h2 => hdom r (by omega)) (fun _ h => absurd h (by omega))
    have h2 := ih (siftDown less hi first hi (i + 1) d) (by rw [h.1.length_eq]; exact hlen) h.2
    exact ⟨(h.1.mono (by omega) (le_refl _)).trans h2.1, h2.2⟩

theorem heap_root_max {α : Type} [Inhabited α] {less : α → α → Bool}
    (hw : StrictWeak less) (d : List α) (first hi : Nat)
    (hdom : ∀ r, Dominates less d first hi r) :
    ∀ x, x < hi → less (item d first) (item d (first + x)) = false := by
  intro x
  induction x using Nat.strong_induction_on with
  | _ x ih =>
    intro hx
    by_cases h0 : x = 0
    · subst h0
      exact hw.irrefl _
    · have hp := ih ((x - 1) / 2) (by omega) (by omega)
      have hc := hdom ((x - 1) / 2) x (by omega) hx
      exact hw.negTrans _ _ _ hp hc

theorem heapPop_spec {α : Type} [Inhabited α] {less : α → α → Bool}
    (hw : StrictWeak less) (hi first : Nat) :
    ∀ (i : Nat) (d : List α), i ≤ hi → first + hi ≤ d.length →
      (∀ r, Dominates less d first i r) →
      AdjSorted less d (first + i) (first + hi) →
      (i < hi → ∀ x, x < i → less (item d (first + i)) (item d (first + x)) = false) →
      Rearranged d (heapPop less first i d) first (first + hi) ∧
        AdjSorted less (heapPop less first i d) first (first + hi) := by
  intro i
  induction i with
  | zero =>
    intro d _ _ _ hs _
    exact ⟨Rearranged.refl _ _ _, by simpa using hs⟩
  | succ i ih =>
    intro d hi1 hlen hdom hs hbound
    unfold heapPop siftDown_func
    have hl1 : first < d.length := by omega
    have hl2 : first + i < d.length := by omega
    have hsw := @Rearranged.swap _ _ d first (first + hi) first (first + i)
      hlen ⟨le_refl _, by omega⟩ ⟨by omega, by omega⟩
    have hsd := siftDown_spec hw 0 i first i 0 (swap d first (first + i)) (by omega)
      (le_refl _) (by rw [length_swap]; omega)
      (by
        intro r _ hr c hc1 hc2
        rw [item_swap_ne d _ _ (first + r) hl1 hl2 (by omega) (by omega),
          item_swap_ne d _ _ (first + c) hl1 hl2 (by omega) (by omega)]
        exact hdom r c hc1 (by omega))
      (fun h => absurd h (by omega))
    have htop : item (siftDown less i first i 0 (swap d first (first + i))) (first + i)
        = item d first := by
      rw [hsd.1.outside _ (by omega), item_swap_snd d _ _ hl1 hl2]
    have hr := ih (siftDown less i first i 0 (swap d first (first + i))) (by omega)
      (by rw [hsd.1.length_eq, length_swap]; exact hlen)
      (fun r => hsd.2 r (Nat.zero_le _))
      (by
        intro k h1 h2
        by_cases e : k = first + i
        · subst e
          rw [htop, hsd.1.outside _ (by omega),
            item_swap_ne d _ _ _ hl1 hl2 (by omega) (by omega)]
          have := hbound (by omega) 0 (by omega)
          simpa using this
        · rw [hsd.1.outside _ (by omega), hsd.1.outside _ (by omega),
            item_swap_ne d _ _ _ hl1 hl2 (by omega) (by omega),
            item_swap_ne d _ _ _ hl1 hl2 (by omega) (by omega)]
          exact hs k (by omega) h2)
      (by
        intro _ x hx
        rw [htop]
        have hmax := heap_root_max hw d first (i + 1) hdom
        have hall := hsd.1.all (fun z => less (item d first) z = false)
          (by
            intro k h1 h2
            by_cases e : k = first
            · subst e
              rw [item_swap_fst d _ _ hl1 hl2]
              exact hmax i (by omega)
            · rw [item_swap_ne d _ _ _ hl1 hl2 e (by omega)]
              have := hmax (k - first) (by omega)
              have e2 : first + (k - first) = k := by omega
              rw [e2] at this
              exact this)
        exact hall (first + x) (by omega) (by omega))
    exact ⟨hsw.trans ((hsd.1.mono (by omega) (by omega)).trans hr.1), hr.2⟩

theorem heapSort_func_spec {α : Type} [Inhabited α] {less : α → α → Bool}
    (hw : StrictWeak less) (d : List α) (a b : Nat) (hab : a ≤ b) (hb : b ≤ d.length) :
    Rearranged d (heapSort_func less d a b) a b ∧
      AdjSorted less (heapSort_func less d a b) a b := by
  unfold heapSort_func
  have e : a + (b - a) = b := by omega
  have h1 := heapBuild_spec hw (b - a) a ((b - a - 1) / 2) d (by omega)
    (by
      intro r hr c hc1 hc2
      omega)
  have h2 := heapPop_spec hw (b - a) a (b - a)
    (heapBuild less (b - a) a ((b - a - 1) / 2) d) (le_refl _)
    (by rw [h1.1.length_eq]; omega) h1.2
    (fun k h1 h2 => absurd h2 (by omega)) (fun h => absurd h (by omega))
  rw [e] at h1 h2
  exact ⟨h1.1.trans h2.1, h2.2⟩

theorem scanUp_spec (p : Nat → Bool) :
    ∀ (n i : Nat), i ≤ scanUp p n i ∧ scanUp p n i ≤ i + n ∧
      (∀ k, i ≤ k → k < scanUp p n i → p k = true) ∧
      (scanUp p n i < i + n → p (scanUp p n i) = false) := by
  intro n
  induction n with
  | zero =>
    intro i
    refine ⟨le_refl _, le_refl _, ?_, ?_⟩
    · intro k h1 h2; simp only [scanUp] at h2; omega
    · intro h; simp only [scanUp] at h; omega
  | succ n ih =>
    intro i
    unfold scanUp
    by_cases hp : p i = true
    · rw [if_pos hp]
      obtain ⟨h1, h2, h3, h4⟩ := ih (i + 1)
      refine ⟨by omega, by omega, ?_, ?_⟩
      · intro k hk1 hk2
        by_cases e : k = i
        · rw [e]; exact hp
        · exact h3 k (by omega) hk2
      · intro h; exact h4 (by omega)
    · rw [if_neg hp]
      refine ⟨le_refl _, by omega, ?_, ?_⟩
      · intro k h1 h2; omega
      · intro _; simpa using hp

theorem scanDown_spec (p : Nat → Bool) :
    ∀ (n j : Nat), n ≤ j → scanDown p n j ≤ j ∧ j ≤ scanDown p n j + n ∧
      (∀ k, scanDown p n j < k → k ≤ j → p k = true) ∧
      (j < scanDown p n j + n → p (scanDown p n j) = false) := by
  intro n
  induction n with
  | zero =>
    intro j _
    refine ⟨le_refl _, le_refl _, ?_, ?_⟩
    · intro k h1 h2; simp only [scanDown] at h1; omega
    · intro h; simp only [scanDown] at h; omega
  | succ n ih =>
    intro j hn
    unfold scanDown
    by_cases hp : p j = true
    · rw [if_pos hp]
      obtain ⟨h1, h2, h3, h4⟩ := ih (j - 1) (by omega)
      refine ⟨by omega, by omega, ?_, ?_⟩
      · intro k hk1 hk2
        by_cases e : k = j
        · rw [e]; exact hp
        · exact h3 k hk1 (by omega)
      · intro h; exact h4 (by omega)
    · rw [if_neg hp]
      refine ⟨le_refl _, by omega, ?_, ?_⟩
      · intro k h1 h2; omega
      · intro _; simpa using hp

theorem hoareLoop_spec {α : Type} [Inhabited α] (f : α → α → Bool) (a b : Nat) :
    ∀ (fuel : Nat) (d : List α) (i j : Nat), a < i → i ≤ j + 1 → j < b → b ≤ d.length →
      j + 1 - i ≤ fuel →
      (∀ k, a < k → k < i → f (item d a) (item d k) = true) →
      (∀ k, j < k → k < b → f (item d a) (item d k) = false) →
      Rearranged d (hoareLoop (fun d k => f (item d a) (item d k)) fuel d i j).1 (a + 1) b ∧
        (hoareLoop (fun d k => f (item d a) (item d k)) fuel d i j).2.1
          = (hoareLoop (fun d k => f (item d a) (item d k)) fuel d i j).2.2 + 1 ∧
        a < (hoareLoop (fun d k => f (item d a) (item d k)) fuel d i j).2.1 ∧
        (hoareLoop (fun d k => f (item d a) (item d k)) fuel d i j).2.1 ≤ b ∧
        (∀ k, a < k → k < (hoareLoop (fun d k => f (item d a) (item d k)) fuel d i j).2.1 →
          f (item d a)
            (item (hoareLoop (fun d k => f (item d a) (item d k)) fuel d i j).1 k) = true) ∧
        (∀ k, (hoareLoop (fun d k => f (item d a) (item d k)) fuel d i j).2.1 ≤ k → k < b →
          f (item d a)
            (item (hoareLoop (fun d k => f (item d a) (item d k)) fuel d i j).1 k) = false) := by
  intro fuel
  induction fuel with
  | zero =>
    intro d i j hai hij hjb hlen hf hl hr
    simp only [hoareLoop]
    refine ⟨Rearranged.refl _ _ _, by omega, hai, by omega, hl, ?_⟩
    intro k h1 h2
    exact hr k (by omega) h2
  | succ fuel ih =>
    intro d i j hai hij hjb hlen hf hl hr
    unfold hoareLoop
    simp only []
    obtain ⟨u1, u2, u3, u4⟩ := scanUp_spec (fun k => f (item d a) (item d k)) (j + 1 - i) i
    generalize scanUp (fun k => f (item d a) (item d k)) (j + 1 - i) i = i1 at u1 u2 u3 u4 ⊢
    obtain ⟨v1, v2, v3, v4⟩ :=
      scanDown_spec (fun k => !f (item d a) (item d k)) (j + 1 - i1) j (by omega)
    generalize scanDown (fun k => !f (item d a) (item d k)) (j + 1 - i1) j = j1
      at v1 v2 v3 v4 ⊢
    by_cases hlt : j1 < i1
    · rw [if_pos hlt]
      dsimp only
      refine ⟨Rearranged.refl _ _ _, by omega, by omega, by omega, ?_, ?_⟩
      · intro k h1 h2
        by_cases e : k < i
        · exact hl k h1 e
        · exact u3 k (by omega) h2
      · intro k h1 h2
        by_cases e : k ≤ j
        · have := v3 k (by omega) e
          simpa using this
        · exact hr k (by omega) h2
    · rw [if_neg hlt]
      have hfi : f (item d a) (item d i1) = false := u4 (by omega)
      have hfj : f (item d a) (item d j1) = true := by
        have := v4 (by omega)
        simpa using this
      have hne : i1 ≠ j1 := by
        intro e
        rw [e, hfj] at hfi
        exact absurd hfi (by simp)
      have hl1 : i1 < d.length := by omega
      have hl2 : j1 < d.length := by omega
      have hpiv : item (swap d i1 j1) a = item d a :=
        item_swap_ne d _ _ _ hl1 hl2 (by omega) (by omega)
      have hrec := ih (swap d i1 j1) (i1 + 1) (j1 - 1) (by omega) (by omega) (by omega)
        (by rw [length_swap]; exact hlen) (by omega)
        (by
          intro k h1 h2
          rw [hpiv]
          by_cases e : k = i1
          · rw [e, item_swap_fst d _ _ hl1 hl2]; exact hfj
          · rw [item_swap_ne d _ _ _ hl1 hl2 e (by omega)]
            by_cases e2 : k < i
            · exact hl k h1 e2
            · exact u3 k (by omega) (by omega))
        (by
          intro k h1 h2
          rw [hpiv]
          by_cases e : k = j1
          · rw [e, item_swap_snd d _ _ hl1 hl2]; exact hfi
          · rw [item_swap_ne d _ _ _ hl1 hl2 (by omega) e]
            by_cases e2 : k ≤ j
            · have := v3 k (by omega) e2
              simpa using this
            · exact hr k (by omega) h2)
      rw [hpiv] at hrec
      refine ⟨Rearranged.trans (Rearranged.swap d hlen ⟨by omega, by omega⟩
        ⟨by omega, by omega⟩) hrec.1, hrec.2.1, hrec.2.2.1, hrec.2.2.2.1, hrec.2.2.2.2.1,
        hrec.2.2.2.2.2⟩

theorem partition_func_eq {α : Type} [Inhabited α] (less : α → α → Bool) (d : List α)
    (a b pivot : Nat) :
    (partition_func less d a b pivot).1
        = swap (hoareLoop (fun d k => less (item d k) (item d a)) (b - a + 1)
            (swap d a pivot) (a + 1) (b - 1)).1
          (hoareLoop (fun d k => less (item d k) (item d a)) (b - a + 1)
            (swap d a pivot) (a + 1) (b - 1)).2.2 a ∧
      (partition_func less d a b pivot).2.1
        = (hoareLoop (fun d k => less (item d k) (item d a)) (b - a + 1)
            (swap d a pivot) (a + 1) (b - 1)).2.2 := by
  unfold partition_func
  rw [hoareLoop]
  dsimp only
  split_ifs <;> exact ⟨rfl, rfl⟩

theorem partition_func_spec {α : Type} [Inhabited α] {less : α → α → Bool}
    (d : List α) (a b pivot : Nat) (hp : a ≤ pivot ∧ pivot < b)
    (hb : b ≤ d.length) :
    (a ≤ (partition_func less d a b pivot).2.1 ∧ (partition_func less d a b pivot).2.1 < b) ∧
      Rearranged d (partition_func less d a b pivot).1 a b ∧
      (∀ k, a ≤ k → k < (partition_func less d a b pivot).2.1 →
        less (item (partition_func less d a b pivot).1 k)
          (item (partition_func less d a b pivot).1 (partition_func less d a b pivot).2.1)
            = true) ∧
      (∀ k, (partition_func less d a b pivot).2.1 < k → k < b →
        less (item (partition_func less d a b pivot).1 k)
          (item (partition_func less d a b pivot).1 (partition_func less d a b pivot).2.1)
            = false) := by
  obtain ⟨e1, e2⟩ := partition_func_eq less d a b pivot
  rw [e1, e2]
  have hl1 : a < d.length := by omega
  have hl2 : pivot < d.length := by omega
  have hsw := @Rearranged.swap _ _ d a b a pivot hb
    ⟨le_refl _, by omega⟩ hp
  have h := hoareLoop_spec (fun p x => less x p) a b (b - a + 1) (swap d a pivot) (a + 1)
    (b - 1) (by omega) (by omega) (by omega) (by rw [length_swap]; exact hb) (by omega)
    (fun k h1 h2 => absurd h2 (by omega)) (fun k h1 h2 => absurd h2 (by omega))
  dsimp only at h
  generalize hoareLoop (fun d k => less (item d k) (item d a)) (b - a + 1)
    (swap d a pivot) (a + 1) (b - 1) = r at h ⊢
  obtain ⟨h1, h2, h3, h4, h5, h6⟩ := h
  have hlen : r.1.length = d.length := by rw [h1.length_eq, length_swap]
  have hl3 : r.2.2 < r.1.length := by omega
  have hl4 : a < r.1.length := by omega
  have hpiv : item r.1 a = item (swap d a pivot) a := h1.outside a (by omega)
  rw [← hpiv] at h5 h6
  refine ⟨⟨by omega, by omega⟩, ?_, ?_, ?_⟩
  · refine hsw.trans ((h1.mono (by omega) (le_refl _)).trans ?_)
    exact Rearranged.swap r.1 (by omega) ⟨by omega, by omega⟩ ⟨le_refl _, by omega⟩
  · intro k hk1 hk2
    rw [item_swap_fst r.1 _ _ hl3 hl4]
    by_cases e : k = a
    · rw [e, item_swap_snd r.1 _ _ hl3 hl4]
      exact h5 r.2.2 (by omega) (by omega)
    · rw [item_swap_ne r.1 _ _ _ hl3 hl4 (by omega) e]
      exact h5 k (by omega) (by omega)
  · intro k hk1 hk2
    rw [item_swap_fst r.1 _ _ hl3 hl4, item_swap_ne r.1 _ _ _ hl3 hl4 (by omega) (by omega)]
    exact h6 k (by omega) hk2

theorem partitionEqual_func_spec {α : Type} [Inhabited α] {less : α → α → Bool}
    (d : List α) (a b pivot : Nat) (hp : a ≤ pivot ∧ pivot < b)
    (hb : b ≤ d.length) :
    (a < (partitionEqual_func less d a b pivot).2 ∧
        (partitionEqual_func less d a b pivot).2 ≤ b) ∧
      Rearranged d (partitionEqual_func less d a b pivot).1 a b ∧
      item (partitionEqual_func less d a b pivot).1 a = item d pivot ∧
      (∀ k, a < k → k < (partitionEqual_func less d a b pivot).2 →
        less (item d pivot) (item (partitionEqual_func less d a b pivot).1 k) = false) ∧
      (∀ k, (partitionEqual_func less d a b pivot).2 ≤ k → k < b →
        less (item d pivot) (item (partitionEqual_func less d a b pivot).1 k) = true) := by
  unfold partitionEqual_func
  dsimp only
  have hl1 : a < d.length := by omega
  have hl2 : pivot < d.length := by omega
  have hsw := @Rearranged.swap _ _ d a b a pivot hb
    ⟨le_refl _, by omega⟩ hp
  have h := hoareLoop_spec (fun p x => !less p x) a b (b - a) (swap d a pivot) (a + 1)
    (b - 1) (by omega) (by omega) (by omega) (by rw [length_swap]; exact hb) (by omega)
    (fun k h1 h2 => absurd h2 (by omega)) (fun k h1 h2 => absurd h2 (by omega))
  dsimp only at h
  generalize hoareLoop (fun d k => !less (item d a) (item d k)) (b - a)
    (swap d a pivot) (a + 1) (b - 1) = r at h ⊢
  obtain ⟨h1, h2, h3, h4, h5, h6⟩ := h
  rw [item_swap_fst d _ _ hl1 hl2] at h5 h6
  refine ⟨⟨h3, h4⟩, hsw.trans (h1.mono (by omega) (le_refl _)), ?_, ?_, ?_⟩
  · rw [h1.outside a (by omega), item_swap_fst d _ _ hl1 hl2]
  · intro k hk1 hk2
    have := h5 k hk1 hk2
    simpa using this
  · intro k hk1 hk2
    have := h6 k hk1 hk2
    simpa using this

theorem shiftLeft_eq {α : Type} [Inhabited α] (less : α → α → Bool) (a : Nat) :
    ∀ (j : Nat) (d : List α), a ≤ j → j < d.length →
      (a = 0 ∨ ∀ k, a ≤ k → k ≤ j → less (item d k) (item d (a - 1)) = false) →
      shiftLeft less j d = insertionInner less a j d := by
  intro j
  induction j with
  | zero => intro d _ _ _; rfl
  | succ j ih =>
    intro d haj hlen hlow
    unfold shiftLeft insertionInner
    by_cases hc : less (item d (j + 1)) (item d j) = true
    · have ha : a < j + 1 := by
        by_contra hge
        have e : a = j + 1 := by omega
        rcases hlow with h0 | h
        · omega
        · have := h (j + 1) (by omega) (le_refl _)
          rw [e] at this
          simp only [Nat.add_sub_cancel] at this
          rw [hc] at this
          exact absurd this (by simp)
      rw [if_pos hc, if_pos ⟨ha, hc⟩]
      have hl1 : j + 1 < d.length := hlen
      have hl2 : j < d.length := by omega
      apply ih _ (by omega) (by rw [length_swap]; omega)
      rcases hlow with h0 | h
      · exact Or.inl h0
      · by_cases h0 : a = 0
        · exact Or.inl h0
        · right
          intro k hk1 hk2
          rw [item_swap_ne d _ _ (a - 1) hl1 hl2 (by omega) (by omega)]
          by_cases e : k = j
          · rw [e, item_swap_snd d _ _ hl1 hl2]
            exact h (j + 1) (by omega) (le_refl _)
          · rw [item_swap_ne d _ _ k hl1 hl2 (by omega) e]
            exact h k hk1 (by omega)
    · rw [if_neg hc, if_neg (fun h => hc h.2)]

theorem shiftRight_spec {α : Type} [Inhabited α] (less : α → α → Bool) (lo b : Nat) :
    ∀ (n j : Nat) (d : List α), lo < j → j + n ≤ b → b ≤ d.length →
      Rearranged d (shiftRight less n j d) lo b := by
  intro n
  induction n with
  | zero => intro j d _ _ _; exact Rearranged.refl _ _ _
  | succ n ih =>
    intro j d hj hn hb
    unfold shiftRight
    split_ifs with hc
    · have h1 : Rearranged d (swap d j (j - 1)) lo b :=
        Rearranged.swap d hb ⟨by omega, by omega⟩ ⟨by omega, by omega⟩
      exact h1.trans
        (ih (j + 1) _ (by omega) (by omega) (by rw [length_swap]; exact hb))
    · exact Rearranged.refl _ _ _

theorem partialLoop_spec {α : Type} [Inhabited α] {less : α → α → Bool}
    (hw : StrictWeak less) (a b : Nat) :
    ∀ (steps : Nat) (d : List α) (i : Nat), a < i → i ≤ b → b ≤ d.length →
      LowerBound less d a b → AdjSorted less d a i →
      Rearranged d (partialLoop less a b steps d i).1 a b ∧
        ((partialLoop less a b steps d i).2 = true →
          AdjSorted less (partialLoop less a b steps d i).1 a b) := by
  intro steps
  induction steps with
  | zero =>
    intro d i _ _ _ _ _
    exact ⟨Rearranged.refl _ _ _, fun h => absurd h (by simp [partialLoop])⟩
  | succ steps ih =>
    intro d i hai hib hb hlow hs
    unfold partialLoop
    dsimp only
    obtain ⟨u1, u2, u3, u4⟩ :=
      scanUp_spec (fun k => !less (item d k) (item d (k - 1))) (b - i) i
    generalize scanUp (fun k => !less (item d k) (item d (k - 1))) (b - i) i = i1
      at u1 u2 u3 u4 ⊢
    have hs1 : AdjSorted less d a i1 := by
      intro k h1 h2
      by_cases e : k + 1 < i
      · exact hs k h1 e
      · have := u3 (k + 1) (by omega) h2
        simpa using this
    by_cases e1 : i1 = b
    · rw [if_pos e1]
      exact ⟨Rearranged.refl _ _ _, fun _ => e1 ▸ hs1⟩
    · rw [if_neg e1]
      by_cases e2 : b - a < 50
      · rw [if_pos e2]
        exact ⟨Rearranged.refl _ _ _, fun h => absurd h (by simp)⟩
      · rw [if_neg e2]
        have hl1 : i1 < d.length := by omega
        have hl2 : i1 - 1 < d.length := by omega
        have hr1 : Rearranged d (swap d i1 (i1 - 1)) a b :=
          Rearranged.swap d hb ⟨by omega, by omega⟩ ⟨by omega, by omega⟩
        -- the smaller one goes to the left
        have hleft : Rearranged (swap d i1 (i1 - 1))
              (if 2 ≤ i1 - a then shiftLeft less (i1 - 1) (swap d i1 (i1 - 1))
                else swap d i1 (i1 - 1)) a i1 ∧
            AdjSorted less
              (if 2 ≤ i1 - a then shiftLeft less (i1 - 1) (swap d i1 (i1 - 1))
                else swap d i1 (i1 - 1)) a i1 := by
          by_cases e3 : 2 ≤ i1 - a
          · rw [if_pos e3]
            have hlow1 := (hlow.of_rearranged hr1)
            rw [shiftLeft_eq less a (i1 - 1) _ (by omega) (by rw [length_swap]; omega)
              (by
                rcases hlow1 with h | h
                · exact Or.inl h
                · exact Or.inr fun k h1 h2 => h k h1 (by omega))]
            have h := insertionInner_spec hw a (i1 - 1) (i1 - 1) (swap d i1 (i1 - 1))
              (by omega) (le_refl _) (by rw [length_swap]; omega)
              (by
                intro k h1 h2 h3
                rw [item_swap_ne d _ _ _ hl1 hl2 (by omega) (by omega),
                  item_swap_ne d _ _ _ hl1 hl2 (by omega) (by omega)]
                exact hs1 k h1 (by omega))
              (fun _ h => absurd h (by omega))
            have e4 : i1 - 1 + 1 = i1 := by omega
            rw [e4] at h
            exact h
          · rw [if_neg e3]
            exact ⟨Rearranged.refl _ _ _, fun k h1 h2 => absurd h2 (by omega)⟩
        generalize (if 2 ≤ i1 - a then shiftLeft less (i1 - 1) (swap d i1 (i1 - 1))
          else swap d i1 (i1 - 1)) = d2 at hleft ⊢
        have hlen2 : d2.length = d.length := by rw [hleft.1.length_eq, length_swap]
        -- the greater one goes to the right
        have hright : Rearranged d2
            (if 2 ≤ b - i1 then shiftRight less (b - (i1 + 1)) (i1 + 1) d2 else d2) i1 b := by
          by_cases e3 : 2 ≤ b - i1
          · rw [if_pos e3]
            exact shiftRight_spec less i1 b _ _ _ (by omega) (by omega) (by omega)
          · rw [if_neg e3]
            exact Rearranged.refl _ _ _
        generalize (if 2 ≤ b - i1 then shiftRight less (b - (i1 + 1)) (i1 + 1) d2 else d2)
          = d3 at hright ⊢
        have hr3 : Rearranged d d3 a b :=
          hr1.trans ((hleft.1.mono (le_refl _) (by omega)).trans
            (hright.mono (by omega) (le_refl _)))
        have hs3 : AdjSorted less d3 a i1 := by
          intro k h1 h2
          rw [hright.outside _ (by omega), hright.outside _ (by omega)]
          exact hleft.2 k h1 h2
        have hrec := ih d3 i1 (by omega) (by omega) (by rw [hr3.length_eq]; exact hb)
          (hlow.of_rearranged hr3) hs3
        exact ⟨hr3.trans hrec.1, hrec.2⟩

theorem partialInsertionSort_func_spec {α : Type} [Inhabited α] {less : α → α → Bool}
    (hw : StrictWeak less) (d : List α) (a b : Nat) (hab : a < b) (hb : b ≤ d.length)
    (hlow : LowerBound less d a b) :
    Rearranged d (partialInsertionSort_func less d a b).1 a b ∧
      ((partialInsertionSort_func less d a b).2 = true →
        AdjSorted less (partialInsertionSort_func less d a b).1 a b) :=
  partialLoop_spec hw a b 5 d (a + 1) (by omega) (by omega) hb hlow
    (fun k h1 h2 => absurd h2 (by omega))

theorem reverseLoop_spec {α : Type} [Inhabited α] (a b : Nat) :
    ∀ (fuel : Nat) (d : List α) (i j : Nat), a ≤ i → j < b → b ≤ d.length →
      Rearranged d (reverseLoop fuel d i j) a b := by
  intro fuel
  induction fuel with
  | zero => intro d i j _ _ _; exact Rearranged.refl _ _ _
  | succ fuel ih =>
    intro d i j hi hj hb
    unfold reverseLoop
    split_ifs with hc
    · have h1 : Rearranged d (swap d i j) a b :=
        Rearranged.swap d hb ⟨by omega, by omega⟩ ⟨by omega, by omega⟩
      exact h1.trans (ih _ (i + 1) (j - 1) (by omega) (by omega)
        (by rw [length_swap]; exact hb))
    · exact Rearranged.refl _ _ _

theorem reverseRange_func_spec {α : Type} [Inhabited α] (d : List α) (a b : Nat)
    (hab : a < b) (hb : b ≤ d.length) : Rearranged d (reverseRange_func d a b) a b :=
  reverseLoop_spec a b (b - a) d a (b - 1) (le_refl _) (by omega) hb

theorem bitsLenAux_zero (fuel : Nat) : bitsLenAux fuel 0 = 0 := by
  cases fuel <;> simp [bitsLenAux]

theorem pow_bitsLenAux_le :
    ∀ (fuel n : Nat), 1 ≤ n → n ≤ fuel → 2 ^ bitsLenAux fuel n ≤ 2 * n := by
  intro fuel
  induction fuel with
  | zero => intro n h1 h2; omega
  | succ fuel ih =>
    intro n h1 h2
    unfold bitsLenAux
    rw [if_neg (by omega)]
    by_cases e : n / 2 = 0
    · rw [e, bitsLenAux_zero]
      simp only [zero_add, pow_one]
      omega
    · have h := ih (n / 2) (by omega) (by omega)
      rw [pow_succ]
      omega

theorem nextPowerOfTwo_le (n : Nat) (h : 1 ≤ n) : nextPowerOfTwo n ≤ 2 * n :=
  pow_bitsLenAux_le n n h (le_refl _)

theorem nextPowerOfTwo_pos (n : Nat) : 0 < nextPowerOfTwo n := by
  unfold nextPowerOfTwo
  positivity

theorem breakPatterns_func_spec {α : Type} [Inhabited α] (next : Nat → Nat) (d : List α)
    (a b : Nat) (hb : b ≤ d.length) : Rearranged d (breakPatterns_func next d a b) a b := by
  unfold breakPatterns_func
  dsimp only
  by_cases h8 : 8 ≤ b - a
  · rw [if_pos h8]
    have hm1 := nextPowerOfTwo_le (b - a) (by omega)
    have hm2 := nextPowerOfTwo_pos (b - a)
    have hother : ∀ r : Nat,
        (if b - a ≤ r % nextPowerOfTwo (b - a) then r % nextPowerOfTwo (b - a) - (b - a)
          else r % nextPowerOfTwo (b - a)) < b - a := by
      intro r
      have := Nat.mod_lt r hm2
      split_ifs with hc <;> omega
    have h1 := hother (next (b - a))
    have h2 := hother (next (next (b - a)))
    have h3 := hother (next (next (next (b - a))))
    refine Rearranged.trans (Rearranged.swap d hb ⟨?_, ?_⟩ ⟨?_, ?_⟩)
      (Rearranged.trans (Rearranged.swap _ (by rw [length_swap]; exact hb) ⟨?_, ?_⟩ ⟨?_, ?_⟩)
        (Rearranged.swap _ (by rw [length_swap, length_swap]; exact hb)
          ⟨?_, ?_⟩ ⟨?_, ?_⟩)) <;> omega
  · rw [if_neg h8]
    exact Rearranged.refl _ _ _

theorem median_func_mem {α : Type} [Inhabited α] (less : α → α → Bool) (d : List α)
    (a b c swaps : Nat) :
    (median_func less d a b c swaps).1 = a ∨ (median_func less d a b c swaps).1 = b ∨
      (median_func less d a b c swaps).1 = c := by
  unfold median_func order2_func
  dsimp only
  split_ifs <;> simp

theorem choosePivot_func_spec {α : Type} [Inhabited α] (less : α → α → Bool) (d : List α)
    (a b : Nat) (h8 : 8 ≤ b - a) :
    a ≤ (choosePivot_func less d a b).1 ∧ (choosePivot_func less d a b).1 < b := by
  unfold choosePivot_func
  dsimp only
  rw [if_pos h8]
  dsimp only
  by_cases h50 : 50 ≤ b - a
  · simp only [if_pos h50]
    unfold medianAdjacent_func
    generalize hs1 : (median_func less d (a + (b - a) / 4 * 1 - 1) (a + (b - a) / 4 * 1)
      (a + (b - a) / 4 * 1 + 1) 0) = m1
    have e1 := median_func_mem less d (a + (b - a) / 4 * 1 - 1) (a + (b - a) / 4 * 1)
      (a + (b - a) / 4 * 1 + 1) 0
    rw [hs1] at e1
    generalize hs2 : (median_func less d (a + (b - a) / 4 * 2 - 1) (a + (b - a) / 4 * 2)
      (a + (b - a) / 4 * 2 + 1) m1.2) = m2
    have e2 := median_func_mem less d (a + (b - a) / 4 * 2 - 1) (a + (b - a) / 4 * 2)
      (a + (b - a) / 4 * 2 + 1) m1.2
    rw [hs2] at e2
    generalize hs3 : (median_func less d (a + (b - a) / 4 * 3 - 1) (a + (b - a) / 4 * 3)
      (a + (b - a) / 4 * 3 + 1) m2.2) = m3
    have e3 := median_func_mem less d (a + (b - a) / 4 * 3 - 1) (a + (b - a) / 4 * 3)
      (a + (b - a) / 4 * 3 + 1) m2.2
    rw [hs3] at e3
    have e4 := median_func_mem less d m1.1 m2.1 m3.1 m3.2
    omega
  · simp only [if_neg h50]
    have e4 := median_func_mem less d (a + (b - a) / 4 * 1) (a + (b - a) / 4 * 2)
      (a + (b - a) / 4 * 3) 0
    omega

theorem pdqsortTurn_tail {α : Type} [Inhabited α] {less : α → α → Bool}
    (hw : StrictWeak less) (d ps : List α) (a b pivot limit1 : Nat) (sorted : Bool)
    (hb : b ≤ d.length) (hlow : LowerBound less d a b) (hr : Rearranged d ps a b)
    (hs : sorted = true → AdjSorted less ps a b) (hp : a ≤ pivot ∧ pivot < b) :
    (∀ d1,
        (if sorted = true then Turn.done ps
          else if 0 < a ∧ less (item ps (a - 1)) (item ps pivot) = false then
            Turn.equal (partitionEqual_func less ps a b pivot).1
              (partitionEqual_func less ps a b pivot).2 limit1
          else
            Turn.split (partition_func less ps a b pivot).1
              (partition_func less ps a b pivot).2.1 limit1
              (partition_func less ps a b pivot).2.2) = Turn.done d1 →
        Rearranged d d1 a b ∧ AdjSorted less d1 a b) ∧
      (∀ d1 mid l1,
        (if sorted = true then Turn.done ps
          else if 0 < a ∧ less (item ps (a - 1)) (item ps pivot) = false then
            Turn.equal (partitionEqual_func less ps a b pivot).1
              (partitionEqual_func less ps a b pivot).2 limit1
          else
            Turn.split (partition_func less ps a b pivot).1
              (partition_func less ps a b pivot).2.1 limit1
              (partition_func less ps a b pivot).2.2) = Turn.equal d1 mid l1 →
        (a < mid ∧ mid ≤ b) ∧ Rearranged d d1 a b ∧ AdjSorted less d1 a mid ∧
          ∀ k, mid ≤ k → k < b → less (item d1 k) (item d1 (mid - 1)) = false) ∧
      (∀ d1 mid l1 ap,
        (if sorted = true then Turn.done ps
          else if 0 < a ∧ less (item ps (a - 1)) (item ps pivot) = false then
            Turn.equal (partitionEqual_func less ps a b pivot).1
              (partitionEqual_func less ps a b pivot).2 limit1
          else
            Turn.split (partition_func less ps a b pivot).1
              (partition_func less ps a b pivot).2.1 limit1
              (partition_func less ps a b pivot).2.2) = Turn.split d1 mid l1 ap →
        (a ≤ mid ∧ mid < b) ∧ Rearranged d d1 a b ∧
          (∀ k, a ≤ k → k < mid → less (item d1 k) (item d1 mid) = true) ∧
          (∀ k, mid < k → k < b → less (item d1 k) (item d1 mid) = false)) := by
  have hbp : b ≤ ps.length := by rw [hr.length_eq]; exact hb
  by_cases h1 : sorted = true
  · simp only [if_pos h1]
    refine ⟨?_, ?_, ?_⟩
    · intro d1 h
      injection h with h
      subst h
      exact ⟨hr, hs h1⟩
    · intro _ _ _ h; cases h
    · intro _ _ _ _ h; cases h
  · simp only [if_neg h1]
    by_cases h2 : 0 < a ∧ less (item ps (a - 1)) (item ps pivot) = false
    · simp only [if_pos h2]
      refine ⟨?_, ?_, ?_⟩
      · intro _ h; cases h
      · intro d1 mid l1 h
        injection h with e1 e2 e3
        obtain ⟨q1, q2, q3, q4, q5⟩ := @partitionEqual_func_spec _ _ less ps a b pivot hp hbp
        rw [e2] at q1 q4 q5
        rw [e1] at q2 q3 q4 q5
        -- no element of the range is less than the pivot
        have hlow2 : ∀ k, a ≤ k → k < b → less (item ps k) (item ps (a - 1)) = false := by
          rcases hlow.of_rearranged hr with h0 | h0
          · omega
          · exact h0
        have hge : ∀ k, a ≤ k → k < b → less (item d1 k) (item ps pivot) = false :=
          q2.all (fun x => less x (item ps pivot) = false)
            (fun k k1 k2 => hw.negTrans _ _ _ (hlow2 k k1 k2) h2.2)
        have hle : ∀ k, a ≤ k → k < mid → less (item ps pivot) (item d1 k) = false := by
          intro k k1 k2
          by_cases e : k = a
          · rw [e, q3]; exact hw.irrefl _
          · exact q4 k (by omega) k2
        refine ⟨q1, hr.trans q2, ?_, ?_⟩
        · intro k k1 k2
          exact hw.negTrans _ _ _ (hge (k + 1) (by omega) (by omega)) (hle k k1 (by omega))
        · intro k k1 k2
          exact hw.negTrans _ _ _ (hw.asymm _ _ (q5 k k1 k2)) (hle (mid - 1) (by omega) (by omega))
      · intro _ _ _ _ h; cases h
    · simp only [if_neg h2]
      refine ⟨?_, ?_, ?_⟩
      · intro _ h; cases h
      · intro _ _ _ h; cases h
      · intro d1 mid l1 ap h
        injection h with e1 e2 e3 e4
        obtain ⟨q1, q2, q3, q4⟩ := @partition_func_spec _ _ less ps a b pivot hp hbp
        rw [e2] at q1 q3 q4
        rw [e1] at q2 q3 q4
        exact ⟨q1, hr.trans q2, q3, q4⟩

theorem pdqsortTurn_spec {α : Type} [Inhabited α] {less : α → α → Bool}
    (hw : StrictWeak less) (next : Nat → Nat) (d : List α) (a b limit : Nat)
    (wasBalanced wasPartitioned : Bool) (hb : b ≤ d.length) (hlow : LowerBound less d a b) :
    (∀ d1, pdqsortTurn next less d a b limit wasBalanced wasPartitioned = Turn.done d1 →
        Rearranged d d1 a b ∧ AdjSorted less d1 a b) ∧
      (∀ d1 mid l1,
        pdqsortTurn next less d a b limit wasBalanced wasPartitioned = Turn.equal d1 mid l1 →
        (a < mid ∧ mid ≤ b) ∧ Rearranged d d1 a b ∧ AdjSorted less d1 a mid ∧
          ∀ k, mid ≤ k → k < b → less (item d1 k) (item d1 (mid - 1)) = false) ∧
      (∀ d1 mid l1 ap,
        pdqsortTurn next less d a b limit wasBalanced wasPartitioned
          = Turn.split d1 mid l1 ap →
        (a ≤ mid ∧ mid < b) ∧ Rearranged d d1 a b ∧
          (∀ k, a ≤ k → k < mid → less (item d1 k) (item d1 mid) = true) ∧
          (∀ k, mid < k → k < b → less (item d1 k) (item d1 mid) = false)) := by
  unfold pdqsortTurn
  by_cases h12 : b - a ≤ 12
  · rw [if_pos h12]
    refine ⟨?_, ?_, ?_⟩
    · intro d1 h
      injection h with h
      subst h
      exact insertionSort_func_spec hw d a b hb
    · intro _ _ _ h; cases h
    · intro _ _ _ _ h; cases h
  · rw [if_neg h12]
    by_cases hl : limit = 0
    · rw [if_pos hl]
      refine ⟨?_, ?_, ?_⟩
      · intro d1 h
        injection h with h
        subst h
        exact heapSort_func_spec hw d a b (by omega) hb
      · intro _ _ _ h; cases h
      · intro _ _ _ _ h; cases h
    · rw [if_neg hl]
      dsimp only
      have r1 : Rearranged d (if wasBalanced = true then d else breakPatterns_func next d a b)
          a b := by
        split_ifs
        · exact Rearranged.refl _ _ _
        · exact breakPatterns_func_spec next d a b hb
      generalize (if wasBalanced = true then d else breakPatterns_func next d a b) = d1
        at r1 ⊢
      generalize (if wasBalanced = true then limit else limit - 1) = limit1
      have hb1 : b ≤ d1.length := by rw [r1.length_eq]; exact hb
      have hpv := choosePivot_func_spec less d1 a b (by omega)
      generalize choosePivot_func less d1 a b = ph at hpv ⊢
      have r2 : Rearranged d1
          (if ph.2 = sortedHint.decreasingHint then reverseRange_func d1 a b else d1) a b := by
        split_ifs
        · exact reverseRange_func_spec d1 a b (by omega) hb1
        · exact Rearranged.refl _ _ _
      generalize (if ph.2 = sortedHint.decreasingHint then reverseRange_func d1 a b else d1)
        = d2 at r2 ⊢
      have hp : a ≤ (if ph.2 = sortedHint.decreasingHint then b - 1 - (ph.1 - a) else ph.1) ∧
          (if ph.2 = sortedHint.decreasingHint then b - 1 - (ph.1 - a) else ph.1) < b := by
        split_ifs <;> omega
      generalize (if ph.2 = sortedHint.decreasingHint then b - 1 - (ph.1 - a) else ph.1)
        = pivot at hp ⊢
      generalize (if ph.2 = sortedHint.decreasingHint then sortedHint.increasingHint
        else ph.2) = hint
      have hb2 : b ≤ d2.length := by rw [r2.length_eq]; exact hb1
      have hlow2 : LowerBound less d2 a b := hlow.of_rearranged (r1.trans r2)
      have r3 : Rearranged d2
            (if wasBalanced = true ∧ wasPartitioned = true ∧ hint = sortedHint.increasingHint
              then partialInsertionSort_func less d2 a b else (d2, false)).1 a b ∧
          ((if wasBalanced = true ∧ wasPartitioned = true ∧ hint = sortedHint.increasingHint
              then partialInsertionSort_func less d2 a b else (d2, false)).2 = true →
            AdjSorted less
              (if wasBalanced = true ∧ wasPartitioned = true ∧
                  hint = sortedHint.increasingHint
                then partialInsertionSort_func less d2 a b else (d2, false)).1 a b) := by
        split_ifs
        · exact partialInsertionSort_func_spec hw d2 a b (by omega) hb2 hlow2
        · exact ⟨Rearranged.refl _ _ _, fun h => absurd h (by simp)⟩
      generalize (if wasBalanced = true ∧ wasPartitioned = true ∧
          hint = sortedHint.increasingHint
        then partialInsertionSort_func less d2 a b else (d2, false)) = ps at r3 ⊢
      exact pdqsortTurn_tail hw d ps.1 a b pivot limit1 ps.2 hb hlow
        ((r1.trans r2).trans r3.1) r3.2 hp

theorem AdjSorted.glue {α : Type} [Inhabited α] {less : α → α → Bool}
    (hw : StrictWeak less) (d : List α) (a mid b : Nat) (p : α)
    (hmid : item d mid = p) (hL : AdjSorted less d a mid) (hR : AdjSorted less d (mid + 1) b)
    (hl : ∀ k, a ≤ k → k < mid → less (item d k) p = true)
    (hr : ∀ k, mid < k → k < b → less (item d k) p = false) : AdjSorted less d a b := by
  intro k k1 k2
  by_cases e1 : k + 1 < mid
  · exact hL k k1 e1
  · by_cases e2 : k + 1 = mid
    · rw [e2, hmid]
      exact hw.asymm _ _ (hl k k1 (by omega))
    · by_cases e3 : k = mid
      · rw [e3, hmid]
        exact hr (mid + 1) (by omega) (by omega)
      · exact hR k (by omega) k2

theorem pdqsortLoop_spec {α : Type} [Inhabited α] {less : α → α → Bool}
    (hw : StrictWeak less) (next : Nat → Nat) :
    ∀ (fuel : Nat) (d : List α) (a b limit : Nat) (wasBalanced wasPartitioned : Bool),
      b - a ≤ fuel → b ≤ d.length → LowerBound less d a b →
      Rearranged d (pdqsortLoop next less fuel d a b limit wasBalanced wasPartitioned) a b ∧
        AdjSorted less (pdqsortLoop next less fuel d a b limit wasBalanced wasPartitioned)
          a b := by
  intro fuel
  induction fuel with
  | zero =>
    intro d a b limit wb wp _ hb _
    unfold pdqsortLoop
    exact insertionSort_func_spec hw d a b hb
  | succ fuel ih =>
    intro d a b limit wb wp hf hb hlow
    unfold pdqsortLoop
    obtain ⟨t1, t2, t3⟩ := pdqsortTurn_spec hw next d a b limit wb wp hb hlow
    cases hT : pdqsortTurn next less d a b limit wb wp with
    | done d1 =>
      dsimp only
      exact t1 d1 hT
    | equal d1 mid l1 =>
      dsimp only
      obtain ⟨m1, r1, s1, bd⟩ := t2 d1 mid l1 hT
      have hrec := ih d1 mid b l1 wb wp (by omega) (by rw [r1.length_eq]; exact hb)
        (Or.inr bd)
      generalize pdqsortLoop next less fuel d1 mid b l1 wb wp = d2 at hrec ⊢
      refine ⟨r1.trans (hrec.1.mono (by omega) (le_refl _)), ?_⟩
      intro k k1 k2
      by_cases e1 : k + 1 < mid
      · rw [hrec.1.outside _ (by omega), hrec.1.outside _ (by omega)]
        exact s1 k k1 e1
      · by_cases e2 : k + 1 = mid
        · have hk : k = mid - 1 := by omega
          rw [hrec.1.outside k (by omega), e2, hk]
          exact hrec.1.all (fun x => less x (item d1 (mid - 1)) = false) bd mid (le_refl _)
            (by omega)
        · exact hrec.2 k (by omega) k2
    | split d1 mid l1 ap =>
      dsimp only
      obtain ⟨m1, r1, lft, rgt⟩ := t3 d1 mid l1 ap hT
      have hb1 : b ≤ d1.length := by rw [r1.length_eq]; exact hb
      have hlow1 : LowerBound less d1 a b := hlow.of_rearranged r1
      by_cases hc : mid - a < b - mid
      · rw [if_pos hc]
        have hL := ih d1 a mid l1 true true (by omega) (by omega) (hlow1.shrink (by omega))
        generalize pdqsortLoop next less fuel d1 a mid l1 true true = dL at hL ⊢
        have hmidL : item dL mid = item d1 mid := hL.1.outside mid (by omega)
        have hR := ih dL (mid + 1) b l1 (decide ((b - a) / 8 ≤ mid - a)) ap (by omega)
          (by rw [hL.1.length_eq]; exact hb1)
          (Or.inr (by
            intro k k1 k2
            rw [Nat.add_sub_cancel, hmidL, hL.1.outside k (by omega)]
            exact rgt k (by omega) k2))
        generalize pdqsortLoop next less fuel dL (mid + 1) b l1
          (decide ((b - a) / 8 ≤ mid - a)) ap = dR at hR ⊢
        refine ⟨r1.trans ((hL.1.mono (le_refl _) (by omega)).trans
          (hR.1.mono (by omega) (le_refl _))), ?_⟩
        apply AdjSorted.glue hw dR a mid b (item d1 mid)
        · rw [hR.1.outside mid (by omega), hmidL]
        · intro k k1 k2
          rw [hR.1.outside _ (by omega), hR.1.outside _ (by omega)]
          exact hL.2 k k1 k2
        · exact hR.2
        · intro k k1 k2
          rw [hR.1.outside k (by omega)]
          exact hL.1.all (fun x => less x (item d1 mid) = true) lft k k1 k2
        · intro k k1 k2
          refine hR.1.all (fun x => less x (item d1 mid) = false) ?_ k (by omega) k2
          intro m m1 m2
          rw [hL.1.outside m (by omega)]
          exact rgt m (by omega) m2
      · rw [if_neg hc]
        have hR := ih d1 (mid + 1) b l1 true true (by omega) hb1
          (Or.inr (by
            intro k k1 k2
            rw [Nat.add_sub_cancel]
            exact rgt k (by omega) k2))
        generalize pdqsortLoop next less fuel d1 (mid + 1) b l1 true true = dR at hR ⊢
        have hmidR : item dR mid = item d1 mid := hR.1.outside mid (by omega)
        have hL := ih dR a mid l1 (decide ((b - a) / 8 ≤ b - mid)) ap (by omega)
          (by rw [hR.1.length_eq]; omega)
          ((hlow1.of_rearranged (hR.1.mono (by omega) (le_refl _))).shrink (by omega))
        generalize pdqsortLoop next less fuel dR a mid l1
          (decide ((b - a) / 8 ≤ b - mid)) ap = dL at hL ⊢
        refine ⟨r1.trans ((hR.1.mono (by omega) (le_refl _)).trans
          (hL.1.mono (le_refl _) (by omega))), ?_⟩
        apply AdjSorted.glue hw dL a mid b (item d1 mid)
        · rw [hL.1.outside mid (by omega), hmidR]
        · exact hL.2
        · intro k k1 k2
          rw [hL.1.outside _ (by omega), hL.1.outside _ (by omega)]
          exact hR.2 k k1 k2
        · intro k k1 k2
          refine hL.1.all (fun x => less x (item d1 mid) = true) ?_ k k1 k2
          intro m m1 m2
          rw [hR.1.outside m (by omega)]
          exact lft m m1 m2
        · intro k k1 k2
          rw [hL.1.outside k (by omega)]
          exact hR.1.all (fun x => less x (item d1 mid) = false)
            (fun m m1 m2 => rgt m (by omega) m2) k (by omega) k2

theorem item_eq_get {α : Type} [Inhabited α] (d : List α) (k : Nat) (h : k < d.length) :
    item d k = d.get ⟨k, h⟩ := by
  simp [item, List.getD_eq_getElem?_getD, List.getElem?_eq_getElem h]

theorem Rearranged.perm {α : Type} [Inhabited α] {d1 d2 : List α}
    (h : Rearranged d1 d2 0 d1.length) : d2.Perm d1 := by
  obtain ⟨hlen, σ, hσ, e⟩ := h
  have hmem : ∀ k, k < d1.length → σ k < d1.length := by
    intro k hk
    by_contra hc
    have h1 := hσ (σ k) (by omega)
    have h2 := σ.injective h1
    omega
  have hmem' : ∀ k, k < d1.length → σ.symm k < d1.length := by
    intro k hk
    by_contra hc
    have h1 := hσ (σ.symm k) (by omega)
    have h2 : σ (σ.symm k) = k := σ.apply_symm_apply k
    omega
  have e1 : d1 = (List.range d1.length).map (item d1) := by
    apply List.ext_getElem
    · simp
    · intro n h1 h2
      simp [item_eq_get d1 n h1]
  have e2 : d2 = ((List.range d1.length).map σ).map (item d1) := by
    apply List.ext_getElem
    · simp [hlen]
    · intro n h1 h2
      simp only [List.getElem_map, List.getElem_range]
      rw [← e n, item_eq_get d2 n h1]
      rfl
  have hp : ((List.range d1.length).map σ).Perm (List.range d1.length) := by
    apply (List.perm_ext_iff_of_nodup ?_ (List.nodup_range _)).mpr
    · intro x
      simp only [List.mem_map, List.mem_range]
      constructor
      · rintro ⟨k, hk, rfl⟩
        exact hmem k hk
      · intro hx
        exact ⟨σ.symm x, hmem' x hx, σ.apply_symm_apply x⟩
    · exact (List.nodup_range _).map σ.injective
  rw [e2]
  conv_rhs => rw [e1]
  exact hp.map _

/-- The specification of `sort.Slice` for a strict weak order: the slice after the
call is a permutation of the slice before it, and no element is less than one
that stands earlier. -/
theorem Slice_spec {α : Type} [Inhabited α] {less : α → α → Bool} (hw : StrictWeak less)
    (next : Nat → Nat) (data : List α) :
    (Slice next less data).Perm data ∧
      ∀ (i j : Nat) (hij : i < j) (hj : j < (Slice next less data).length),
        less ((Slice next less data).get ⟨j, hj⟩)
          ((Slice next less data).get ⟨i, Nat.lt_trans hij hj⟩) = false := by
  have h := pdqsortLoop_spec hw next (data.length - 0) data 0 data.length
    (bitsLen data.length) true true (le_refl _) (le_refl _) (Or.inl rfl)
  have hS : Slice next less data
      = pdqsortLoop next less (data.length - 0) data 0 data.length (bitsLen data.length)
          true true := rfl
  rw [← hS] at h
  refine ⟨h.1.perm, ?_⟩
  intro i j hij hj
  have hp := AdjSorted.pair hw h.2 (j - i) i (Nat.zero_le _)
    (by rw [h.1.length_eq] at hj; omega)
  have e : i + (j - i) = j := by omega
  rw [e, item_eq_get _ j hj, item_eq_get _ i (Nat.lt_trans hij hj)] at hp
  exact hp

end sort

/-! ## Sorting backups -/

theorem Time.Before_asymm (t u : Time) (h : t.Before u = true) : u.Before t = false := by
  simp only [Time.Before, Bool.or_eq_true, Bool.and_eq_true, decide_eq_true_eq] at h
  simp only [Time.Before, Bool.or_eq_false_iff, Bool.and_eq_false_iff, decide_eq_false_iff_not]
  omega

theorem Time.Before_neg_trans (t u v : Time) (h1 : t.Before u = false)
    (h2 : u.Before v = false) : t.Before v = false := by
  simp only [Time.Before, Bool.or_eq_false_iff, Bool.and_eq_false_iff,
    decide_eq_false_iff_not] at h1 h2 ⊢
  omega

theorem backup_Before_strictWeak :
    sort.StrictWeak (fun x y : file.backup => x.Before y) :=
  ⟨fun x y h => Time.Before_asymm x.t y.t h,
    fun x y z h1 h2 => Time.Before_neg_trans x.t y.t z.t h1 h2⟩

/-- C7. `sortBackups` leaves a permutation of its input in which no backup is
`Before` one that stands earlier: for all `i < j`, the backup at `j` is not
`Before` the backup at `i`. -/
theorem sortBackups_perm_ascending (next : Nat → Nat) (backups : List file.backup) :
    (file.sortBackups next backups).Perm backups ∧
      ∀ (i j : Nat) (hij : i < j) (hj : j < (file.sortBackups next backups).length),
        ((file.sortBackups next backups).get ⟨j, hj⟩).Before
          ((file.sortBackups next backups).get ⟨i, Nat.lt_trans hij hj⟩) = false :=
  sort.Slice_spec backup_Before_strictWeak next backups

/-- A witness of `sortBackups_perm_ascending`: thirteen backups, more than insertion
sort alone takes, with equal times among them. -/
theorem sortBackups_perm_ascending_witness :
    (file.sortBackups file.plainNext file.thirteen).Perm file.thirteen ∧
      ((file.sortBackups file.plainNext file.thirteen).get ⟨12, by decide⟩).Before
        ((file.sortBackups file.plainNext file.thirteen).get ⟨0, by decide⟩) = false :=
  ⟨(sortBackups_perm_ascending file.plainNext file.thirteen).1,
    (sortBackups_perm_ascending file.plainNext file.thirteen).2 0 12 (by decide) (by decide)⟩

/-- An example of `sortBackups`: on the thirteen backups the order among equal
times is not the order of the input. -/
theorem sortBackups_thirteen :
    (file.sortBackups file.plainNext file.thirteen).map (fun x => x.path)
      = [ascii "p06", ascii "p03", ascii "p00", ascii "p09", ascii "p12", ascii "p01",
          ascii "p04", ascii "p07", ascii "p10", ascii "p02", ascii "p05", ascii "p08",
          ascii "p11"] := by
  decide

/-! ## The file writer -/

theorem rollLoop_append {σ : Type} (fw : FileWriterView) (pre post : List (Roller σ)) :
    ∀ (i : Nat) (w w1 : World σ) (tr1 : List Event),
      rollLoop fw i pre w = (none, w1, tr1) →
      rollLoop fw i (pre ++ post) w =
        ((rollLoop fw (i + pre.length) post w1).1,
          (rollLoop fw (i + pre.length) post w1).2.1,
          tr1 ++ (rollLoop fw (i + pre.length) post w1).2.2) := by
  induction pre with
  | nil =>
    intro i w w1 tr1 h
    simp only [rollLoop, Prod.mk.injEq, true_and] at h
    obtain ⟨rfl, rfl⟩ := h
    simp
  | cons r pre ih =>
    intro i w w1 tr1 h
    have hlen : i + (r :: pre).length = i + 1 + pre.length := by
      simp only [List.length_cons]; omega
    rw [hlen]
    simp only [List.cons_append, rollLoop, List.append_eq] at h ⊢
    cases ht : (r.TimeToRoll fw w).1
    · simp only [ht, Bool.false_eq_true, if_false, Prod.mk.injEq] at h ⊢
      obtain ⟨h1, h2, h3⟩ := h
      have hrec := ih (i + 1) (r.TimeToRoll fw w).2 w1 _ (Prod.ext h1 (Prod.ext h2 rfl))
      rw [hrec]
      simp [← h3]
    · simp only [ht, if_true] at h ⊢
      rcases hr : r.Roll fw (r.TimeToRoll fw w).2 with ⟨res, w2⟩
      rw [hr] at h
      cases res with
      | ok f => simp at h
      | error err =>
        simp only [Prod.mk.injEq] at h ⊢
        obtain ⟨h1, h2, h3⟩ := h
        have hrec := ih (i + 1) w2 w1 _ (Prod.ext h1 (Prod.ext h2 rfl))
        rw [hrec]
        simp [← h3]

theorem rollLoop_calls_index {σ : Type} (fw : FileWriterView) (rs : List (Roller σ)) :
    ∀ (i : Nat) (w : World σ), ∀ e ∈ (rollLoop fw i rs w).2.2,
      i ≤ e.index ∧ e.index < i + rs.length := by
  induction rs with
  | nil => intro i w e he; simp [rollLoop] at he
  | cons r rs ih =>
    intro i w e he
    simp only [rollLoop] at he
    cases ht : (r.TimeToRoll fw w).1
    · simp only [ht, Bool.false_eq_true, if_false, List.mem_cons] at he
      rcases he with rfl | he
      · simp [Event.index]
      · have := ih (i + 1) _ e he
        simp only [List.length_cons]; omega
    · simp only [ht, if_true] at he
      rcases hr : r.Roll fw (r.TimeToRoll fw w).2 with ⟨res, w2⟩
      rw [hr] at he
      cases res with
      | ok f =>
        simp only [List.mem_cons, List.mem_singleton, List.not_mem_nil, or_false] at he
        rcases he with rfl | rfl <;> simp [Event.index]
      | error err =>
        simp only [List.mem_cons] at he
        rcases he with rfl | rfl | he
        · simp [Event.index]
        · simp [Event.index]
        · have := ih (i + 1) _ e he
          simp only [List.length_cons]; omega

theorem rollLoop_calls_ordered {σ : Type} (fw : FileWriterView) (rs : List (Roller σ)) :
    ∀ (i : Nat) (w : World σ),
      ((rollLoop fw i rs w).2.2).Pairwise (fun a b => a.index ≤ b.index) := by
  induction rs with
  | nil => intro i w; simp [rollLoop]
  | cons r rs ih =>
    intro i w
    simp only [rollLoop]
    cases ht : (r.TimeToRoll fw w).1
    · simp only [Bool.false_eq_true, if_false, List.pairwise_cons]
      refine ⟨?_, ih _ _⟩
      intro e he
      have := rollLoop_calls_index fw rs (i + 1) _ e he
      show i ≤ e.index
      omega
    · simp only [if_true]
      rcases hr : r.Roll fw (r.TimeToRoll fw w).2 with ⟨res, w2⟩
      cases res with
      | ok f => simp [Event.index]
      | error err =>
        simp only [List.pairwise_cons, List.mem_cons]
        refine ⟨?_, ?_, ih _ _⟩
        · intro e he
          rcases he with rfl | he
          · simp [Event.index]
          · have := rollLoop_calls_index fw rs (i + 1) _ e he
            show i ≤ e.index
            omega
        · intro e he
          have := rollLoop_calls_index fw rs (i + 1) _ e he
          show i ≤ e.index
          omega

theorem rollLoop_none_iff {σ : Type} (fw : FileWriterView) (rs : List (Roller σ)) :
    ∀ (i : Nat) (w : World σ),
      (rollLoop fw i rs w).1 = none ↔ ∀ j, Event.Roll j true ∉ (rollLoop fw i rs w).2.2 := by
  induction rs with
  | nil => intro i w; simp [rollLoop]
  | cons r rs ih =>
    intro i w
    simp only [rollLoop]
    cases ht : (r.TimeToRoll fw w).1
    · simp only [Bool.false_eq_true, if_false, List.mem_cons, not_or]
      rw [ih]
      constructor
      · intro h j
        exact ⟨by simp, h j⟩
      · intro h j
        exact (h j).2
    · simp only [if_true]
      rcases hr : r.Roll fw (r.TimeToRoll fw w).2 with ⟨res, w2⟩
      cases res with
      | ok f =>
        simp only [List.mem_cons, List.mem_singleton, List.not_mem_nil, or_false, not_or]
        constructor
        · intro h; simp at h
        · intro h; exact absurd rfl (h i).2
      | error err =>
        simp only [List.mem_cons, not_or]
        rw [ih]
        constructor
        · intro h j
          exact ⟨by simp, by simp, h j⟩
        · intro h j
          exact (h j).2.2

theorem Write_calls {σ : Type} (fw : FileWriter σ) (w : World σ) (p : GoString) :
    (fw.Write w p).calls = (rollLoop fw.view 0 fw.rollers w).2.2 := rfl

theorem accepted_le (room : Option Nat) (len : Nat) : os.accepted room len ≤ len := by
  cases room with
  | none => simp [os.accepted]
  | some r => simp [os.accepted]

theorem accepted_all (room : Option Nat) (len : Nat)
    (h : ∀ r, room = some r → len ≤ r) : os.accepted room len = len := by
  cases room with
  | none => simp [os.accepted]
  | some r => simpa [os.accepted] using h r rfl

/-- C1, as amended. If no roller rolls successfully during `Write` (no call of
`Roll` returns a nil error), the writer keeps its file, and `Write` is the call
`fw.file.Write(p)` on that file in the world the rollers left, with its results
and its effect. When the file is open there, the first `n` bytes of `p` are
appended to it, and the error is nil exactly when `n = len(p)`, which is so
whenever the device has room for `p`. When the file has been closed there,
nothing is written and the error is `os.ErrClosed`. -/
theorem Write_without_roll {σ : Type} (fw : FileWriter σ) (w : World σ) (p : GoString)
    (hnone : ∀ j, Event.Roll j true ∉ (fw.Write w p).calls) :
    (fw.Write w p).fw.file = fw.file ∧
      ((fw.Write w p).n, (fw.Write w p).err)
        = (os.File.Write (rollLoop fw.view 0 fw.rollers w).2.1 fw.file p).1 ∧
      (fw.Write w p).world
        = (os.File.Write (rollLoop fw.view 0 fw.rollers w).2.1 fw.file p).2 ∧
      (((rollLoop fw.view 0 fw.rollers w).2.1.files fw.file).closed = false →
        (fw.Write w p).n ≤ p.length ∧
          ((fw.Write w p).world.files fw.file).data
            = ((rollLoop fw.view 0 fw.rollers w).2.1.files fw.file).data
              ++ p.take (fw.Write w p).n ∧
          ((fw.Write w p).err = none ↔ (fw.Write w p).n = p.length) ∧
          ((∀ r, ((rollLoop fw.view 0 fw.rollers w).2.1.files fw.file).room = some r →
              p.length ≤ r) →
            (fw.Write w p).n = p.length ∧ (fw.Write w p).err = none ∧
              ((fw.Write w p).world.files fw.file).data
                = ((rollLoop fw.view 0 fw.rollers w).2.1.files fw.file).data ++ p)) ∧
      (((rollLoop fw.view 0 fw.rollers w).2.1.files fw.file).closed = true →
        (fw.Write w p).n = 0 ∧ (fw.Write w p).err = some Error.ErrClosed ∧
          (fw.Write w p).world = (rollLoop fw.view 0 fw.rollers w).2.1) := by
  have h1 : (rollLoop fw.view 0 fw.rollers w).1 = none :=
    (rollLoop_none_iff fw.view fw.rollers 0 w).mpr hnone
  have hfile : (fw.Write w p).fw.file = fw.file := by
    simp only [FileWriter.Write, h1]
  have hn : ((fw.Write w p).n, (fw.Write w p).err)
      = (os.File.Write (rollLoop fw.view 0 fw.rollers w).2.1 fw.file p).1 := by
    simp only [FileWriter.Write, h1]
  have hw : (fw.Write w p).world
      = (os.File.Write (rollLoop fw.view 0 fw.rollers w).2.1 fw.file p).2 := by
    simp only [FileWriter.Write, h1]
  have hn1 := congrArg Prod.fst hn
  have hn2 := congrArg Prod.snd hn
  refine ⟨hfile, hn, hw, ?_, ?_⟩
  · intro hopen
    simp only [os.File.Write, hopen, Bool.false_eq_true, if_false] at hn1 hn2 hw
    have hdata : ((fw.Write w p).world.files fw.file).data
        = ((rollLoop fw.view 0 fw.rollers w).2.1.files fw.file).data
          ++ p.take (fw.Write w p).n := by
      rw [hw, hn1]
      simp
    have herr : (fw.Write w p).err = none ↔ (fw.Write w p).n = p.length := by
      rw [hn2, hn1]
      split_ifs with h <;> simp [h]
    refine ⟨by rw [hn1]; exact accepted_le _ _, hdata, herr, ?_⟩
    intro hroom
    have hall : (fw.Write w p).n = p.length := by
      rw [hn1]; exact accepted_all _ _ hroom
    refine ⟨hall, herr.mpr hall, ?_⟩
    rw [hdata, hall, List.take_length]
  · intro hclosed
    simp only [os.File.Write, hclosed, if_true] at hn1 hn2 hw
    exact ⟨hn1, hn2, hw⟩

/-- A witness of `Write_without_roll`: a roller that is not due and one whose `Roll`
fails, on the open file 3. -/
theorem Write_without_roll_witness :
    ((writer3 [idleRoller, failingRoller]).Write world3 (ascii "log")).fw.file = 3 ∧
      ((writer3 [idleRoller, failingRoller]).Write world3 (ascii "log")).n = 3 ∧
      ((writer3 [idleRoller, failingRoller]).Write world3 (ascii "log")).err = none ∧
      (((writer3 [idleRoller, failingRoller]).Write world3 (ascii "log")).world.files 3).data
        = ascii "log" :=
  have hcalls : ((writer3 [idleRoller, failingRoller]).Write world3 (ascii "log")).calls
      = [Event.TimeToRoll 0, Event.TimeToRoll 1, Event.Roll 1 false] := by decide
  have h := Write_without_roll (writer3 [idleRoller, failingRoller]) world3 (ascii "log")
    (by intro j; rw [hcalls]; simp)
  have h4 := (h.2.2.2.1 (by decide)).2.2.2 (by decide)
  ⟨h.1, h4.1, h4.2.1, h4.2.2⟩

/-- C1 as stated fails: on a writer that has been closed no roller rolls
successfully and the writer keeps its file 3, yet `Write` appends nothing to it and
returns `n = 0` with `os.ErrClosed`. -/
theorem Write_on_closed_writer_loses_bytes :
    (((writer3 [idleRoller]).Close world3).1.1.Write
        ((writer3 [idleRoller]).Close world3).1.2 (ascii "log")).calls = [] ∧
      (((writer3 [idleRoller]).Close world3).1.1.Write
        ((writer3 [idleRoller]).Close world3).1.2 (ascii "log")).fw.file
          = ((writer3 [idleRoller]).Close world3).1.1.file ∧
      (((writer3 [idleRoller]).Close world3).1.1.Write
        ((writer3 [idleRoller]).Close world3).1.2 (ascii "log")).n = 0 ∧
      (((writer3 [idleRoller]).Close world3).1.1.Write
        ((writer3 [idleRoller]).Close world3).1.2 (ascii "log")).err = some Error.ErrClosed ∧
      ((((writer3 [idleRoller]).Close world3).1.1.Write
        ((writer3 [idleRoller]).Close world3).1.2 (ascii "log")).world.files 3).data = [] := by
  decide

/-- C2, as amended. The rollers are consulted in list order, and the first roller
whose `TimeToRoll` returns true and whose `Roll` returns a nil error wins: when no
roller of `before` rolls successfully and `roller` does, `Write` adopts the file of
`roller`, writes to it, and calls no roller after it in the list. -/
theorem Write_first_successful_roll {σ : Type} (fw : FileWriter σ) (w : World σ)
    (p : GoString) (before after : List (Roller σ)) (roller : Roller σ)
    (w1 w2 w3 : World σ) (calls1 : List Event) (newFile : os.File)
    (hrollers : fw.rollers = before ++ roller :: after)
    (hbefore : rollLoop fw.view 0 before w = (none, w1, calls1))
    (hfire : roller.TimeToRoll fw.view w1 = (true, w2))
    (hroll : roller.Roll fw.view w2 = (Except.ok newFile, w3)) :
    (fw.Write w p).fw.file = newFile ∧
      (fw.Write w p).calls
        = calls1 ++ [Event.TimeToRoll before.length, Event.Roll before.length true] ∧
      (∀ e ∈ (fw.Write w p).calls, e.index ≤ before.length) ∧
      ((fw.Write w p).calls).Pairwise (fun a b => a.index ≤ b.index) ∧
      ((fw.Write w p).n, (fw.Write w p).err) = (os.File.Write w3 newFile p).1 ∧
      (fw.Write w p).world = (os.File.Write w3 newFile p).2 := by
  have hloop : rollLoop fw.view 0 fw.rollers w
      = (some newFile, w3,
          calls1 ++ [Event.TimeToRoll before.length, Event.Roll before.length true]) := by
    rw [hrollers, rollLoop_append fw.view before (roller :: after) 0 w w1 calls1 hbefore]
    simp only [rollLoop, hfire, if_true, hroll, Nat.zero_add]
  have hcalls : (fw.Write w p).calls
      = calls1 ++ [Event.TimeToRoll before.length, Event.Roll before.length true] := by
    rw [Write_calls, hloop]
  refine ⟨?_, hcalls, ?_, ?_, ?_, ?_⟩
  · simp only [FileWriter.Write, hloop]
  · intro e he
    rw [hcalls, List.mem_append] at he
    rcases he with he | he
    · have h := rollLoop_calls_index fw.view before 0 w e (by rw [hbefore]; exact he)
      omega
    · simp only [List.mem_cons, List.mem_singleton, List.not_mem_nil, or_false] at he
      rcases he with rfl | rfl <;> simp [Event.index]
  · rw [Write_calls]
    exact rollLoop_calls_ordered fw.view fw.rollers 0 w
  · simp only [FileWriter.Write, hloop]
  · simp only [FileWriter.Write, hloop]

/-- A witness of `Write_first_successful_roll`: a roller whose `Roll` fails, then
one that rolls to the file 4, then one that would roll to the file 5. -/
theorem Write_first_successful_roll_witness :
    ((writer3 [failingRoller, rollerTo 4, rollerTo 5]).Write world3 (ascii "log")).fw.file = 4 ∧
      ((writer3 [failingRoller, rollerTo 4, rollerTo 5]).Write world3 (ascii "log")).calls
        = [Event.TimeToRoll 0, Event.Roll 0 false] ++ [Event.TimeToRoll 1, Event.Roll 1 true] :=
  have h := Write_first_successful_roll (writer3 [failingRoller, rollerTo 4, rollerTo 5])
    world3 (ascii "log") [failingRoller] [rollerTo 5] (rollerTo 4) world3 world3
    ((rollerTo 4).Roll (writer3 [failingRoller, rollerTo 4, rollerTo 5]).view world3).2
    [Event.TimeToRoll 0, Event.Roll 0 false] 4 rfl rfl rfl rfl
  ⟨h.1, h.2.1⟩

/-- C2 as stated fails: the first roller whose `TimeToRoll` returns true is the one
at index 0, but its `Roll` fails; `Write` goes on to the roller at index 1, calls
its `TimeToRoll` and its `Roll`, and adopts the file 4 of that roller. -/
theorem Write_consults_after_failed_roll :
    (failingRoller.TimeToRoll (writer3 [failingRoller, rollerTo 4]).view world3).1 = true ∧
      ((writer3 [failingRoller, rollerTo 4]).Write world3 (ascii "log")).calls
        = [Event.TimeToRoll 0, Event.Roll 0 false, Event.TimeToRoll 1, Event.Roll 1 true] ∧
      ((writer3 [failingRoller, rollerTo 4]).Write world3 (ascii "log")).fw.file = 4 := by
  decide

theorem Close_closes {σ : Type} (fw : FileWriter σ) (w : World σ) :
    (fw.Close w).1.1.rollers = [] ∧
      ((fw.Close w).1.2.files (fw.Close w).1.1.file).closed = true := by
  refine ⟨rfl, ?_⟩
  simp only [FileWriter.Close, os.File.Close]
  split_ifs with h
  · exact h
  · simp

theorem Write_on_closed {σ : Type} (fw : FileWriter σ) (w : World σ) (p : GoString)
    (hr : fw.rollers = []) (hc : (w.files fw.file).closed = true) :
    (fw.Write w p).n = 0 ∧ (fw.Write w p).err = some Error.ErrClosed ∧
      (fw.Write w p).calls = [] ∧ (fw.Write w p).world = w ∧
      (fw.Write w p).fw.file = fw.file ∧ (fw.Write w p).fw.rollers = [] := by
  simp [FileWriter.Write, hr, rollLoop, os.File.Write, hc]

theorem call_stays_closed {σ : Type} (s : FileWriter σ × World σ) (c : Call)
    (hr : s.1.rollers = []) (hc : (s.2.files s.1.file).closed = true) :
    (FileWriter.call s c).1.rollers = [] ∧
      ((FileWriter.call s c).2.files (FileWriter.call s c).1.file).closed = true := by
  cases c with
  | Write p =>
    have h := Write_on_closed s.1 s.2 p hr hc
    simp only [FileWriter.call]
    rw [h.2.2.2.1, h.2.2.2.2.1]
    exact ⟨h.2.2.2.2.2, hc⟩
  | Close =>
    simp only [FileWriter.call]
    exact Close_closes s.1 s.2

theorem calls_stay_closed {σ : Type} (cs : List Call) :
    ∀ (s : FileWriter σ × World σ), s.1.rollers = [] →
      (s.2.files s.1.file).closed = true →
      (FileWriter.calls s cs).1.rollers = [] ∧
        ((FileWriter.calls s cs).2.files (FileWriter.calls s cs).1.file).closed = true := by
  induction cs with
  | nil => intro s hr hc; exact ⟨hr, hc⟩
  | cons c cs ih =>
    intro s hr hc
    have h := call_stays_closed s c hr hc
    simpa [FileWriter.calls] using ih (FileWriter.call s c) h.1 h.2

/-- C3. Once `Close` has been called, whatever calls of `Write` and `Close` follow,
every later `Write(p)` returns `n = 0` and the error `os.ErrClosed`, which is no
other error; it changes no file, and it calls no roller, the list of rollers being
empty since `Close`. -/
theorem Write_after_Close {σ : Type} (fw : FileWriter σ) (w : World σ) (cs : List Call)
    (p : GoString) :
    ((FileWriter.calls (fw.Close w).1 cs).1.Write (FileWriter.calls (fw.Close w).1 cs).2 p).n = 0 ∧
      ((FileWriter.calls (fw.Close w).1 cs).1.Write
        (FileWriter.calls (fw.Close w).1 cs).2 p).err = some Error.ErrClosed ∧
      (∀ msg : String, ((FileWriter.calls (fw.Close w).1 cs).1.Write
        (FileWriter.calls (fw.Close w).1 cs).2 p).err ≠ some (Error.other msg)) ∧
      ((FileWriter.calls (fw.Close w).1 cs).1.Write
        (FileWriter.calls (fw.Close w).1 cs).2 p).world = (FileWriter.calls (fw.Close w).1 cs).2 ∧
      ((FileWriter.calls (fw.Close w).1 cs).1.Write
        (FileWriter.calls (fw.Close w).1 cs).2 p).calls = [] ∧
      (FileWriter.calls (fw.Close w).1 cs).1.rollers = [] := by
  have hclosed := Close_closes fw w
  have hs := calls_stay_closed cs (fw.Close w).1 hclosed.1 hclosed.2
  have h := Write_on_closed (FileWriter.calls (fw.Close w).1 cs).1
    (FileWriter.calls (fw.Close w).1 cs).2 p hs.1 hs.2
  refine ⟨h.1, h.2.1, ?_, h.2.2.2.1, h.2.2.1, hs.1⟩
  intro msg
  rw [h.2.1]
  simp

theorem call_seq {σ : Type} (s : FileWriter σ × World σ) (c : Call) :
    (FileWriter.call s c).1.seq = s.1.seq := by
  cases c <;> rfl

theorem calls_seq {σ : Type} (cs : List Call) :
    ∀ (s : FileWriter σ × World σ), (FileWriter.calls s cs).1.seq = s.1.seq := by
  induction cs with
  | nil => intro s; rfl
  | cons c cs ih =>
    intro s
    have h := ih (FileWriter.call s c)
    rw [call_seq] at h
    simpa [FileWriter.calls] using h

/-- C8, as amended. `Write` leaves the sequence number as it was, also when a
roller rolls successfully and its file is adopted; so does `Close`. Across any
sequence of calls the number keeps its value, and hence never decreases. -/
theorem Write_keeps_seq {σ : Type} (fw : FileWriter σ) (w : World σ) (p : GoString)
    (cs more : List Call) :
    (fw.Write w p).fw.seq = fw.seq ∧
      (fw.Close w).1.1.seq = fw.seq ∧
      (FileWriter.calls (fw, w) cs).1.seq = fw.seq ∧
      (FileWriter.calls (fw, w) cs).1.seq ≤ (FileWriter.calls (fw, w) (cs ++ more)).1.seq := by
  refine ⟨rfl, rfl, calls_seq cs (fw, w), ?_⟩
  rw [calls_seq cs (fw, w), calls_seq (cs ++ more) (fw, w)]

/-- C8 as stated fails: on a writer with `seq = 0`, a `Write` in which the roller
rolls successfully and its file 4 is adopted leaves `seq` at 0, not at 1. -/
theorem Write_roll_keeps_seq_zero :
    NewFileWriter (Except.ok 3) (ascii "test.log") [rollerTo 4]
        = Except.ok (writer3 [rollerTo 4]) ∧
      (writer3 [rollerTo 4]).seq = 0 ∧
      ((writer3 [rollerTo 4]).Write world3 (ascii "log")).calls
        = [Event.TimeToRoll 0, Event.Roll 0 true] ∧
      ((writer3 [rollerTo 4]).Write world3 (ascii "log")).fw.file = 4 ∧
      ((writer3 [rollerTo 4]).Write world3 (ascii "log")).fw.seq = 0 ∧
      ((writer3 [rollerTo 4]).Write world3 (ascii "log")).fw.seq
        ≠ (writer3 [rollerTo 4]).seq + 1 :=
  ⟨rfl, by decide⟩

/-! ## Comments of the configuration file -/

namespace bytes

theorem IndexByte_none (s : GoString) (c : Nat) (h : IndexByte s c = none) : c ∉ s := by
  induction s with
  | nil => simp
  | cons b bs ih =>
    unfold IndexByte at h
    split_ifs at h with hb
    simp only [Option.map_eq_none'] at h
    intro hmem
    rcases List.mem_cons.mp hmem with h1 | h1
    · exact hb h1.symm
    · exact ih h h1

theorem IndexByte_some (s : GoString) (c : Nat) :
    ∀ m, IndexByte s c = some m →
      c ∉ s.take m ∧ s = s.take m ++ c :: s.drop (m + 1) ∧
        Count s c = Count (s.drop (m + 1)) c + 1 := by
  induction s with
  | nil => intro m h; simp [IndexByte] at h
  | cons b bs ih =>
    intro m h
    unfold IndexByte at h
    split_ifs at h with hb
    · have hm : m = 0 := by simpa using h.symm
      subst hm
      subst hb
      simp [Count]
    · simp only [Option.map_eq_some'] at h
      obtain ⟨k, hk, rfl⟩ := h
      obtain ⟨h1, h2, h3⟩ := ih k hk
      refine ⟨?_, ?_, ?_⟩
      · simp only [List.take_succ_cons, List.mem_cons, not_or]
        exact ⟨fun hc => hb hc.symm, h1⟩
      · simp only [List.take_succ_cons, List.drop_succ_cons, List.cons_append]
        rw [← h2]
      · simp only [Count, hb, if_false, List.drop_succ_cons]
        exact h3

theorem Count_zero (s : GoString) (c : Nat) (h : Count s c = 0) : c ∉ s := by
  induction s with
  | nil => simp
  | cons b bs ih =>
    unfold Count at h
    split_ifs at h with hb
    intro hmem
    rcases List.mem_cons.mp hmem with h1 | h1
    · exact hb h1.symm
    · exact ih h h1

theorem Count_le_length (s : GoString) (c : Nat) : Count s c ≤ s.length := by
  induction s with
  | nil => simp [Count]
  | cons b bs ih =>
    unfold Count
    split_ifs <;> simp only [List.length_cons] <;> omega

theorem splitLoop_ne_nil (c k : Nat) (s : GoString) : splitLoop c k s ≠ [] := by
  cases k with
  | zero => simp [splitLoop]
  | succ k =>
    unfold splitLoop
    cases IndexByte s c <;> simp

theorem intercalate_cons (sep a : GoString) (rest : List GoString) (h : rest ≠ []) :
    List.intercalate sep (a :: rest) = a ++ sep ++ List.intercalate sep rest := by
  cases rest with
  | nil => exact absurd rfl h
  | cons b bs => simp [List.intercalate]

theorem splitLoop_intercalate (c : Nat) :
    ∀ (k : Nat) (s : GoString), List.intercalate [c] (splitLoop c k s) = s := by
  intro k
  induction k with
  | zero => intro s; simp [splitLoop, List.intercalate]
  | succ k ih =>
    intro s
    unfold splitLoop
    cases hm : IndexByte s c with
    | none => simp [List.intercalate]
    | some m =>
      simp only
      rw [intercalate_cons _ _ _ (splitLoop_ne_nil c k _), ih]
      have := (IndexByte_some s c m hm).2.1
      simpa using this.symm

theorem splitLoop_no_sep (c : Nat) :
    ∀ (k : Nat) (s : GoString), Count s c ≤ k → ∀ l ∈ splitLoop c k s, c ∉ l := by
  intro k
  induction k with
  | zero =>
    intro s hk l hl
    simp only [splitLoop, List.mem_singleton] at hl
    subst hl
    exact Count_zero _ c (by omega)
  | succ k ih =>
    intro s hk l hl
    unfold splitLoop at hl
    cases hm : IndexByte s c with
    | none =>
      rw [hm] at hl
      simp only [List.mem_singleton] at hl
      subst hl
      exact IndexByte_none _ c hm
    | some m =>
      rw [hm] at hl
      simp only [List.mem_cons] at hl
      obtain ⟨h1, _, h3⟩ := IndexByte_some s c m hm
      rcases hl with rfl | hl
      · exact h1
      · exact ih _ (by omega) l hl

theorem Split_fuel (s : GoString) (c : Nat) :
    min (Count s c + 1) (s.length + 1) - 1 = Count s c := by
  have := Count_le_length s c
  omega

end bytes

theorem foldl_append_kept (keep : GoString → Bool) (lines : List GoString) :
    ∀ buffer : GoString,
      lines.foldl (fun buffer line => if keep line then buffer ++ line else buffer) buffer
        = buffer ++ (lines.filter keep).flatten := by
  induction lines with
  | nil => intro buffer; simp
  | cons l ls ih =>
    intro buffer
    simp only [List.foldl_cons, List.filter_cons]
    rw [ih]
    split_ifs <;> simp

/-- C10. The lines of the input are its pieces between line feeds: joined with line
feeds they give the input back, and none holds a line feed. `removeComments`
returns the concatenation, in order, of the lines whose trimmed text does not
start with `#`, each unchanged, and no line feed is part of the result. -/
theorem removeComments_kept_lines (TrimSpace : GoString → GoString)
    (fileInBytes : GoString) :
    List.intercalate [newlineByte] (bytes.Split fileInBytes newlineByte) = fileInBytes ∧
      (∀ line ∈ bytes.Split fileInBytes newlineByte, newlineByte ∉ line) ∧
      removeComments TrimSpace fileInBytes
        = ((bytes.Split fileInBytes newlineByte).filter
            (fun line => !bytes.HasPrefix (TrimSpace line) (ascii "#"))).flatten ∧
      (∀ text : GoString, bytes.HasPrefix text (ascii "#") = true ↔ text.head? = some 35) ∧
      newlineByte ∉ removeComments TrimSpace fileInBytes := by
  have hsep : ∀ line ∈ bytes.Split fileInBytes newlineByte, newlineByte ∉ line := by
    intro line hl
    unfold bytes.Split at hl
    simp only [bytes.Split_fuel] at hl
    exact bytes.splitLoop_no_sep newlineByte _ _ (le_refl _) line hl
  have hout : removeComments TrimSpace fileInBytes
      = ((bytes.Split fileInBytes newlineByte).filter
          (fun line => !bytes.HasPrefix (TrimSpace line) (ascii "#"))).flatten := by
    unfold removeComments
    simp only
    rw [foldl_append_kept (fun line => !bytes.HasPrefix (TrimSpace line) (ascii "#"))]
    simp
  refine ⟨bytes.splitLoop_intercalate _ _ _, hsep, hout, ?_, ?_⟩
  · intro text
    cases text with
    | nil => simp [bytes.HasPrefix, ascii]
    | cons b bs => simp [bytes.HasPrefix, ascii]
  · rw [hout]
    intro hmem
    obtain ⟨l, hl, hin⟩ := List.mem_flatten.mp hmem
    exact hsep l (List.mem_of_mem_filter hl) hin

/-- An example of `removeComments`: the comment line is dropped whole, and the two
other lines are joined without the line feeds between them. -/
theorem removeComments_example :
    removeComments trimAscii (ascii "\"level\": \"info\",\n  # handlers\n\"a\": 1")
      = ascii "\"level\": \"info\",\"a\": 1" := by
  decide

end Logit
